import Mathlib

/-!
# A verification development for the CSS430 programs

Three programs are embedded as executable Lean definitions: the Unix shell
(`P1 Unix Shell/shell.c`, namespace `Shell`), the sudoku checker
(`Project2 Sudoku/sudoku.c`, namespace `Sudoku`) and the memory allocator
(`P4 Contiguous Memory Allocation/Memo.c`, namespace `Memo`). The definitions of
all three come first, the theorems after them.

For the shell's line-processing engine:

* C strings are `String`s, a `char **` is a block of pointer slots
  (`List (Option String)`, `none` being `NULL`);
* reads of a block are explicit, and a read or write outside a block is a
  `Fault` (undefined behaviour in C);
* system calls (`fork`, `pipe`, `open`, `execvp`) take their results from an
  oracle `Sys`, and every function returns the `Run` of the process that is
  being followed: the events it performs, in order, and how the function ended.
  A process that sees `fork` return `0` is the child, so one definition gives
  the behaviour of the shell process and of each of its children.
-/

namespace Shell

/-! ## Constants of `shell.h` -/

/-- Constant `MAX_TOKENS` of shell.h: max number of tokens. -/
def MAX_TOKENS : Nat := 40

/-- Constant `MAX_SEGMENTS` of shell.h: max number of segments. -/
def MAX_SEGMENTS : Nat := 10

/-- Function `equal` of shell.c: `strcmp(a, b) == 0`. -/
def equal (a b : String) : Bool := decide (a = b)

/-! ## Token arrays -/

/-- A `char **`: the pointer slots from the pointer to the end of its block;
`none` is `NULL`. -/
abbrev TokenArray := List (Option String)

/-- The NULL-terminated array that holds the tokens `ts`. -/
def cArray (ts : List String) : TokenArray := ts.map some ++ [none]

/-- The strings of a token array up to its first `NULL`: what a C callee such as
`execvp` sees of it. -/
def argv : TokenArray → List String
  | [] => []
  | none :: _ => []
  | some t :: rest => t :: argv rest

/-! ## Faults, events and runs -/

/-- Undefined behaviour the embedding makes explicit. -/
inductive Fault where
  /-- a loop of the model ran out of fuel (never happens, see `segmentLoop_error`) -/
  | out_of_fuel
  /-- a store `segments[index]` with `index >= MAX_SEGMENTS` -/
  | segments_overflow (index : Nat)
  /-- a read `tokens[index]` outside the block -/
  | bad_read (index : Nat)
  /-- `execvp(NULL, ...)` -/
  | null_program
  deriving DecidableEq, Repr

/-- File descriptors, named by their role. -/
inductive Fd where
  | stdin
  | stdout
  | pipe_rd
  | pipe_wr
  | file (path : String)
  deriving DecidableEq, Repr

/-- What the followed process does, in program order. `enter_single` and
`enter_pipeline` record a call of the function and the arguments it receives
(token arrays as the callee sees them, up to the first `NULL`). -/
inductive Event where
  | enter_single (args : List String) (background : Bool)
  | enter_pipeline (left right : List String) (background : Bool)
  | ascii_art
  | fork (ret : Int)
  | pipe (ret : Int)
  | open_file (path : String) (for_write : Bool) (ok : Bool)
  | dup2 (src dst : Fd)
  | close (fd : Fd)
  | execvp (file : Option String) (args : List String)
  | perror (msg : String)
  | exit (status : Nat)
  | waitpid (pid : Int)
  | free
  deriving DecidableEq, Repr

/-- How a function call ended for the followed process. -/
inductive Outcome where
  /-- the function returned to its caller -/
  | returned
  /-- the process called `exit(status)` -/
  | exited (status : Nat)
  /-- `execvp` succeeded: the process image was replaced -/
  | replaced
  /-- undefined behaviour -/
  | fault (f : Fault)
  deriving DecidableEq, Repr

/-- Results of the system calls, as seen by the followed process. `fork k` and
`pipe k` are the values returned when `k` calls of `fork` or `pipe` were made
before. -/
structure Sys where
  fork : Nat → Int
  pipe : Nat → Int
  open_ok : String → Bool → Bool
  exec_ok : String → List String → Bool

/-- The run of a function: the events performed, the number of `fork`/`pipe`
calls made so far, and the outcome. -/
structure Run where
  events : List Event
  calls : Nat
  outcome : Outcome
  deriving DecidableEq, Repr

/-- Sequencing: `next` runs only if the first run returned. -/
def Run.andThen (r : Run) (next : Nat → Run) : Run :=
  match r.outcome with
  | .returned =>
    let r2 := next r.calls
    { events := r.events ++ r2.events, calls := r2.calls, outcome := r2.outcome }
  | _ => r

/-- `EXIT_FAILURE`. -/
def EXIT_FAILURE : Nat := 1

/-- `EXIT_SUCCESS`. -/
def EXIT_SUCCESS : Nat := 0

/-! ## `execute_single_command` (shell.c lines 59-117) -/

/-- The locals the redirection scan leaves behind. -/
structure Redirection where
  input_file : Option String
  output_file : Option String
  tokens : TokenArray
  deriving DecidableEq, Repr

/-- The redirection scan, lines 69-83: `rest` is the part of the array from
index `i` on, `before` the slots below `i`.
`for (i = 0; tokens[i] != NULL; i++)`: at `<` or `>` the path is `tokens[i + 1]`,
`tokens[i] = NULL`, and the loop breaks. -/
def redirectionScan : (before : TokenArray) → (rest : TokenArray) → (i : Nat) →
    Except Fault Redirection
  | _, [], i => .error (.bad_read i)
  | before, none :: rest, _ =>
    .ok { input_file := none, output_file := none, tokens := before ++ none :: rest }
  | before, some t :: rest, i =>
    if equal t "<" then
      match rest with
      | [] => .error (.bad_read (i + 1))
      | path :: _ =>
        .ok { input_file := path, output_file := none, tokens := before ++ none :: rest }
    else if equal t ">" then
      match rest with
      | [] => .error (.bad_read (i + 1))
      | path :: _ =>
        .ok { input_file := none, output_file := path, tokens := before ++ none :: rest }
    else redirectionScan (before ++ [some t]) rest (i + 1)

/-- The child branch `pid == 0`, lines 89-113: open and bind the redirection
files, then `execvp(tokens[0], tokens)`. -/
def childLaunch (sys : Sys) (r : Redirection) : List Event × Outcome :=
  let input : List Event × Bool :=
    match r.input_file with
    | some f =>
      if sys.open_ok f false then
        ([.open_file f false true, .dup2 (.file f) .stdin, .close (.file f)], true)
      else ([.open_file f false false, .perror "open", .exit EXIT_FAILURE], false)
    | none => ([], true)
  if !input.2 then (input.1, .exited EXIT_FAILURE)
  else
    let output : List Event × Bool :=
      match r.output_file with
      | some f =>
        if sys.open_ok f true then
          ([.open_file f true true, .dup2 (.file f) .stdout, .close (.file f)], true)
        else ([.open_file f true false, .perror "open", .exit EXIT_FAILURE], false)
      | none => ([], true)
    if !output.2 then (input.1 ++ output.1, .exited EXIT_FAILURE)
    else
      match r.tokens with
      | [] => (input.1 ++ output.1, .fault (.bad_read 0))
      | none :: _ =>
        (input.1 ++ output.1 ++ [.execvp none (argv r.tokens)], .fault .null_program)
      | some prog :: _ =>
        if sys.exec_ok prog (argv r.tokens) then
          (input.1 ++ output.1 ++ [.execvp (some prog) (argv r.tokens)], .replaced)
        else
          (input.1 ++ output.1 ++
            [.execvp (some prog) (argv r.tokens), .perror "execvp", .exit EXIT_FAILURE],
           .exited EXIT_FAILURE)

/-- Lines 68-116 of `execute_single_command`: the redirection scan, `fork`, and
the three branches on `pid`. -/
def forkAndLaunch (sys : Sys) (tokens : TokenArray) (background : Bool) (n : Nat) : Run :=
  match redirectionScan [] tokens 0 with
  | .error f => { events := [], calls := n, outcome := .fault f }
  | .ok r =>
    let pid := sys.fork n
    if pid = 0 then
      let c := childLaunch sys r
      { events := .fork pid :: c.1, calls := n + 1, outcome := c.2 }
    else if 0 < pid ∧ background = false then
      { events := [.fork pid, .waitpid pid], calls := n + 1, outcome := .returned }
    else if pid < 0 then
      { events := [.fork pid, .perror "fork"], calls := n + 1, outcome := .returned }
    else { events := [.fork pid], calls := n + 1, outcome := .returned }

/-- Function `execute_single_command(char **tokens, bool background)`. -/
def execute_single_command (sys : Sys) (tokens : TokenArray) (background : Bool)
    (n : Nat) : Run :=
  let enter := Event.enter_single (argv tokens) background
  match tokens with
  | [] => { events := [enter], calls := n, outcome := .fault (.bad_read 0) }
  | none :: _ => { events := [enter], calls := n, outcome := .returned }
  | some t0 :: rest =>
    if equal t0 "ascii" then
      match rest with
      | [] => { events := [enter], calls := n, outcome := .fault (.bad_read 1) }
      | none :: _ => { events := [enter, .ascii_art], calls := n, outcome := .returned }
      | some _ :: _ =>
        let r := forkAndLaunch sys tokens background n
        { r with events := enter :: r.events }
    else
      let r := forkAndLaunch sys tokens background n
      { r with events := enter :: r.events }

/-! ## `execute_pipeline` (shell.c lines 129-166) -/

/-- The call `exit(EXIT_SUCCESS)`. -/
def exitSuccess (k : Nat) : Run :=
  { events := [.exit EXIT_SUCCESS], calls := k, outcome := .exited EXIT_SUCCESS }

/-- Function `execute_pipeline(char **left, char **right, bool background)`. -/
def execute_pipeline (sys : Sys) (left right : TokenArray) (background : Bool)
    (n : Nat) : Run :=
  let enter := Event.enter_pipeline (argv left) (argv right) background
  let p := sys.pipe n
  if p = -1 then
    { events := [enter, .pipe p, .perror "pipe"], calls := n + 1, outcome := .returned }
  else
    let left_pid := sys.fork (n + 1)
    if left_pid = 0 then
      let head : Run :=
        { events := [enter, .pipe p, .fork left_pid,
                     .close .pipe_rd, .dup2 .pipe_wr .stdout, .close .pipe_wr],
          calls := n + 2, outcome := .returned }
      (head.andThen (execute_single_command sys left false)).andThen exitSuccess
    else
      let right_pid := sys.fork (n + 2)
      if right_pid = 0 then
        let head : Run :=
          { events := [enter, .pipe p, .fork left_pid, .fork right_pid,
                       .close .pipe_wr, .dup2 .pipe_rd .stdin, .close .pipe_rd],
            calls := n + 3, outcome := .returned }
        (head.andThen (execute_single_command sys right false)).andThen exitSuccess
      else
        { events := [enter, .pipe p, .fork left_pid, .fork right_pid,
                     .close .pipe_rd, .close .pipe_wr] ++
                    (if background then [] else [.waitpid left_pid, .waitpid right_pid]),
          calls := n + 3, outcome := .returned }

/-! ## `processLine` (shell.c lines 175-249) -/

/-- The delimiters given to `strtok`: `" \t"`. -/
def isDelim (c : Char) : Bool := c = ' ' || c = '\t'

/-- The successive results of `strtok(line, " \t")`, `strtok(NULL, " \t")`, ...:
the maximal runs of non-delimiter characters. `cur` holds the characters of the
token being read, last one first. -/
def strtokAll : (chars : List Char) → (cur : List Char) → List String
  | [], [] => []
  | [], c :: cur => [String.mk (c :: cur).reverse]
  | ch :: chars, cur =>
    if isDelim ch then
      match cur with
      | [] => strtokAll chars []
      | c :: cur => String.mk (c :: cur).reverse :: strtokAll chars []
    else strtokAll chars (ch :: cur)

/-- The whitespace-delimited token sequence of a line. -/
def words (line : String) : List String := strtokAll line.toList []

/-- The tokenizing loop, lines 180-185:
`while (token != NULL && token_count < MAX_TOKENS - 1) tokens[token_count++] = token`. -/
def tokenLoop : (found : List String) → (token_count : Nat) → List String
  | [], _ => []
  | token :: found, token_count =>
    if token_count < MAX_TOKENS - 1 then token :: tokenLoop found (token_count + 1)
    else []

/-- The tokens `processLine` keeps of a line (`tokens[0 .. token_count)`). -/
def tokenize (line : String) : List String := tokenLoop (words line) 0

/-- One entry of the `segments` array. `tokens` is the block `seg_tokens`
allocated for it: the tokens of the segment and a final `NULL`. -/
structure Segment where
  tokens : TokenArray
  background : Bool
  deriving DecidableEq, Repr

/-- The condition of the inner loop, line 199:
`!equal(tokens[i], ";") && !equal(tokens[i], "&")`. -/
def inSegment (t : String) : Bool := !equal t ";" && !equal t "&"

/-- The segmenting loop, lines 194-224. `rest` is `tokens[i .. token_count)` and
`num_segments` the index of the next store. Each round takes the tokens up to the
next `;` or `&` (or the end), steps over that separator, and stores the segment in
`segments[num_segments]`; the array has `MAX_SEGMENTS` entries and the loop does not
compare `num_segments` with it. -/
def segmentLoop : (fuel : Nat) → (rest : List String) → (num_segments : Nat) →
    Except Fault (List Segment)
  | _, [], _ => .ok []
  | 0, _ :: _, _ => .error .out_of_fuel
  | fuel + 1, t :: ts, num_segments =>
    let seg := (t :: ts).takeWhile inSegment
    let after := (t :: ts).dropWhile inSegment
    let background :=
      match after with
      | [] => false
      | sep :: _ => equal sep "&"
    if num_segments < MAX_SEGMENTS then
      match segmentLoop fuel (after.drop 1) (num_segments + 1) with
      | .ok segs => .ok ({ tokens := cArray seg, background := background } :: segs)
      | .error f => .error f
    else .error (.segments_overflow num_segments)

/-- The first half of `processLine`: the segments stored for a line. -/
def segmentLine (line : String) : Except Fault (List Segment) :=
  segmentLoop (tokenize line).length (tokenize line) 0

/-- The scan for the first `|`, lines 231-237: `rest` is the array from index `i`
on; the result is `pipe_pos` (`none` for `-1`). -/
def findPipe : (rest : TokenArray) → (i : Nat) → Except Fault (Option Nat)
  | [], i => .error (.bad_read i)
  | none :: _, _ => .ok none
  | some t :: rest, i => if equal t "|" then .ok (some i) else findPipe rest (i + 1)

/-- The call `free(tokens)`, line 247. -/
def freeTokens (k : Nat) : Run :=
  { events := [.free], calls := k, outcome := .returned }

/-- The body of the dispatch loop, lines 228-247, for one segment:
`left = tokens; left[pipe_pos] = NULL; right = &tokens[pipe_pos + 1]`. -/
def dispatchSegment (sys : Sys) (tokens : TokenArray) (background : Bool) (n : Nat) : Run :=
  match findPipe tokens 0 with
  | .error f => { events := [], calls := n, outcome := .fault f }
  | .ok (some pipe_pos) =>
    (execute_pipeline sys (tokens.set pipe_pos none) (tokens.drop (pipe_pos + 1))
        background n).andThen freeTokens
  | .ok none => (execute_single_command sys tokens background n).andThen freeTokens

/-- The dispatch loop, lines 227-248, over `segments[s .. num_segments)`. -/
def dispatchLoop (sys : Sys) : (segments : List Segment) → (n : Nat) → Run
  | [], n => { events := [], calls := n, outcome := .returned }
  | seg :: segments, n =>
    (dispatchSegment sys seg.tokens seg.background n).andThen (dispatchLoop sys segments)

/-- Function `processLine(char *line)`. -/
def processLine (sys : Sys) (line : String) (n : Nat) : Run :=
  match segmentLine line with
  | .error f => { events := [], calls := n, outcome := .fault f }
  | .ok segments => dispatchLoop sys segments n

/-! ## Observations on runs -/

/-- The process ids the followed process waited on, in order. -/
def waitedPids : List Event → List Int
  | [] => []
  | .waitpid pid :: es => pid :: waitedPids es
  | _ :: es => waitedPids es

/-- The process ids of the children the followed process created, in order. -/
def createdPids : List Event → List Int
  | [] => []
  | .fork ret :: es => if 0 < ret then ret :: createdPids es else createdPids es
  | _ :: es => createdPids es

/-- The calls of `execute_single_command` and `execute_pipeline`, in order. -/
def callsMade : List Event → List Event
  | [] => []
  | .enter_single a b :: es => .enter_single a b :: callsMade es
  | .enter_pipeline l r b :: es => .enter_pipeline l r b :: callsMade es
  | _ :: es => callsMade es

/-! ## Inputs of the examples -/

/-- A line of forty one-letter words. -/
def fortyWords : String :=
  "a a a a a a a a a a a a a a a a a a a a a a a a a a a a a a a a a a a a a a a a"

/-- Thirty-eight one-letter words, then `& b`: forty tokens in 79 characters. -/
def longBackgroundLine : String :=
  "a a a a a a a a a a a a a a a a a a a a a a a a a a a a a a a a a a a a a a & b"

/-- The separators removed from a token sequence. -/
def withoutSeparators (ts : List String) : List String :=
  ts.filter (fun t => decide (t ≠ ";" ∧ t ≠ "&"))

/-- The shell process as the followed process: every `fork` returns the
process id `7` of a new child, every other call succeeds. -/
def parentSys : Sys :=
  { fork := fun _ => 7, pipe := fun _ => 0, open_ok := fun _ _ => true,
    exec_ok := fun _ _ => true }

/-- A child as the followed process: `fork` returns `0`, every other call
succeeds. -/
def childSys : Sys :=
  { fork := fun _ => 0, pipe := fun _ => 0, open_ok := fun _ _ => true,
    exec_ok := fun _ _ => true }

/-- The shell process as the followed process, with a new process id for
every `fork`: the call made after `k` earlier calls returns `100 + k`. -/
def shellSys : Sys :=
  { fork := fun k => 100 + k, pipe := fun _ => 0, open_ok := fun _ _ => true,
    exec_ok := fun _ _ => true }

/-- The left child of a pipeline as the followed process: the first `fork` of
`execute_pipeline` (one call, `pipe`, precedes it) returns `0`, and the child's own
`fork` returns the process id `55`. -/
def leftChildSys : Sys :=
  { fork := fun k => if k = 1 then 0 else 55, pipe := fun _ => 0,
    open_ok := fun _ _ => true, exec_ok := fun _ _ => true }

/-- Eleven segments, each the one-word command `a` in the foreground. -/
def elevenSegments : List Segment :=
  List.replicate 11 { tokens := cArray ["a"], background := false }

/-- The call the dispatch loop is to make for a segment: `execute_pipeline` on the
tokens before and after the first `|`, or `execute_single_command` on all of them,
with the segment's background flag. -/
def expectedCall (s : Segment) : Event :=
  if "|" ∈ argv s.tokens then
    .enter_pipeline ((argv s.tokens).takeWhile (fun t => decide (t ≠ "|")))
      (((argv s.tokens).dropWhile (fun t => decide (t ≠ "|"))).drop 1) s.background
  else .enter_single (argv s.tokens) s.background

/-! ## `fetchline` and `interactiveShell` (shell.c lines 256-298 and 332-339) -/

/-- Constant `MAXLINE` of shell.h: max length of input line. -/
def MAXLINE : Nat := 80

/-- The successive reads of `getline` on the bytes of standard input: each read
takes the bytes up to and including the next `'\n'`, the last one what is left
when the input ends without `'\n'`. `cur` holds the bytes of the read under way,
last one first. -/
def getlineAll : (stdin : List Char) → (cur : List Char) → List (List Char)
  | [], [] => []
  | [], c :: cur => [(c :: cur).reverse]
  | ch :: stdin, cur =>
    if ch = '\n' then (ch :: cur).reverse :: getlineAll stdin []
    else getlineAll stdin (ch :: cur)

/-- The C string held by a buffer: its bytes up to the first NUL. -/
def cString (buffer : List Char) : String :=
  String.mk (buffer.takeWhile (fun c => decide (c ≠ '\x00')))

/-- Function `fetchline(char **line)`. `read` is what `getline` stores for this
call, `none` when the input is at its end and `getline` returns `-1`; then the
buffer keeps its content `line`. Otherwise `n` is the number of bytes read, the
buffer holds them and a final NUL, and `(*line)[n - 1] = '\0'` is done when
`n > 0`. The result is `n` (lengths are taken to fit an `int`) and the C string in
the buffer. -/
def fetchline (read : Option (List Char)) (line : String) : Int × String :=
  match read with
  | none => (-1, line)
  | some bytes =>
    let n : Int := bytes.length
    if 0 < n then (n, cString ((bytes ++ ['\x00']).set (bytes.length - 1) '\x00'))
    else (n, cString (bytes ++ ['\x00']))

/-- The copy made for a recall, lines 283-284:
`strncpy(line, last_command, MAXLINE); line[MAXLINE - 1] = '\0'`. The buffer of
`line` is taken to have room for `MAXLINE` bytes. -/
def recallCopy (last_command : String) : String :=
  String.mk (last_command.toList.take (MAXLINE - 1))

/-- What `interactiveShell` itself does, in program order. -/
inductive ShellEvent where
  /-- `printf(PROMPT); fflush(stdout)` -/
  | prompt
  /-- `printf("No commands in history.\n")` -/
  | no_history
  /-- `printf("osh> %s\n", line)` -/
  | echo (line : String)
  /-- `processLine(line)`, with the text of `line` at the call and the run of the call -/
  | process_line (line : String) (run : Run)
  deriving DecidableEq, Repr

/-- The state after one round of the loop of `interactiveShell`. -/
structure Round where
  events : List ShellEvent
  /-- the static variable `last_command`; `none` is `NULL` -/
  last_command : Option String
  calls : Nat
  should_run : Bool
  /-- `.returned` unless the followed process ended inside `processLine` -/
  outcome : Outcome
  deriving DecidableEq, Repr

/-- One round of the loop of `interactiveShell`, lines 263-292, after
`fetchline` returned `n` and left the C string `line` in the buffer. -/
def shellRound (sys : Sys) (n : Int) (line : String) (last_command : Option String)
    (calls : Nat) : Round :=
  if n = -1 ∨ equal line "exit" = true then
    { events := [.prompt], last_command := last_command, calls := calls,
      should_run := false, outcome := .returned }
  else if equal line "" then
    { events := [.prompt], last_command := last_command, calls := calls,
      should_run := true, outcome := .returned }
  else if equal line "!!" then
    match last_command with
    | none =>
      { events := [.prompt, .no_history], last_command := none, calls := calls,
        should_run := true, outcome := .returned }
    | some held =>
      let copy := recallCopy held
      let run := processLine sys copy calls
      { events := [.prompt, .echo copy, .process_line copy run], last_command := some held,
        calls := run.calls, should_run := true, outcome := run.outcome }
  else
    let run := processLine sys line calls
    { events := [.prompt, .process_line line run], last_command := some line,
      calls := run.calls, should_run := true, outcome := run.outcome }

/-- The run of `interactiveShell`. `status` is the value returned, `none` when the
followed process ended inside `processLine`. -/
structure Session where
  events : List ShellEvent
  last_command : Option String
  calls : Nat
  outcome : Outcome
  status : Option Int
  deriving DecidableEq, Repr

/-- The loop `while (should_run)` of `interactiveShell` over the reads of `getline`
still to come. When none is left `fetchline` returns `-1`. -/
def shellLoop (sys : Sys) : (reads : List (List Char)) → (line : String) →
    (last_command : Option String) → (calls : Nat) → Session
  | [], line, last_command, calls =>
    let fetched := fetchline none line
    let round := shellRound sys fetched.1 fetched.2 last_command calls
    { events := round.events, last_command := round.last_command, calls := round.calls,
      outcome := round.outcome,
      status := if round.outcome = .returned then some 0 else none }
  | read :: reads, line, last_command, calls =>
    let fetched := fetchline (some read) line
    let round := shellRound sys fetched.1 fetched.2 last_command calls
    if round.outcome = .returned ∧ round.should_run = true then
      let rest := shellLoop sys reads fetched.2 round.last_command round.calls
      { rest with events := round.events ++ rest.events }
    else
      { events := round.events, last_command := round.last_command, calls := round.calls,
        outcome := round.outcome,
        status := if round.outcome = .returned then some 0 else none }

/-- Function `interactiveShell()`, on the bytes of standard input: `line` starts as
the empty string of `calloc(1, MAXLINE)` and `last_command` as `NULL`. -/
def interactiveShell (sys : Sys) (stdin : List Char) : Session :=
  shellLoop sys (getlineAll stdin []) "" none 0

/-- The texts `processLine` was called with, in order. -/
def processedLines : List ShellEvent → List String
  | [] => []
  | .process_line line _ :: es => line :: processedLines es
  | _ :: es => processedLines es

/-- The bytes of standard input that hold the given lines, each ended by `'\n'`. -/
def stdinOf : List String → List Char
  | [] => []
  | l :: ls => l.toList ++ '\n' :: stdinOf ls

/-- The texts the interactive loop is to dispatch for a sequence of input lines,
given the held history line: it stops at `exit`, skips empty lines, skips `!!` when
nothing is held, replays for `!!` the first `MAXLINE - 1` characters of the held
line, and dispatches every other line as it is, which is then the held line. -/
def dispatchedTexts : (held : Option String) → (lines : List String) → List String
  | _, [] => []
  | held, l :: ls =>
    if l = "exit" then []
    else if l = "" then dispatchedTexts held ls
    else if l = "!!" then
      match held with
      | none => dispatchedTexts none ls
      | some h => String.mk (h.toList.take (MAXLINE - 1)) :: dispatchedTexts (some h) ls
    else l :: dispatchedTexts (some l) ls

/-- The history slot the interactive loop is to end with for a sequence of input
lines: the last line before `exit` that is neither empty nor `!!`. -/
def heldAfter : (held : Option String) → (lines : List String) → Option String
  | held, [] => held
  | held, l :: ls =>
    if l = "exit" then held
    else if l = "" ∨ l = "!!" then heldAfter held ls
    else heldAfter (some l) ls

/-- Thirty-eight one-letter words, then `; ;`: forty tokens in 79 characters. -/
def twoSemicolonsLine : String :=
  "a a a a a a a a a a a a a a a a a a a a a a a a a a a a a a a a a a a a a a ; ;"

/-- Eleven `;`. -/
def elevenSemicolons : String := "; ; ; ; ; ; ; ; ; ; ;"

/-- A command line of eighty characters: `echo` and seventy-five letters. -/
def eightyChars : String :=
  "echo aaaaaaaaaaaaaaaaaaaaaaaaaaaaaaaaaaaaaaaaaaaaaaaaaaaaaaaaaaaaaaaaaaaaaaaaaaa"

/-- The shell process when its first `fork` in a pipeline fails: the call made
after one earlier call (`pipe`) returns `-1`, every other `fork` returns `8`. -/
def forkFailSys : Sys :=
  { fork := fun k => if k = 1 then -1 else 8, pipe := fun _ => 0,
    open_ok := fun _ _ => true, exec_ok := fun _ _ => true }

/-- The indices of `tokens` the redirection scan of `execute_single_command`
reads, lines 73-83, in order: `tokens[i]` for the loop condition and the
comparisons, and `tokens[i + 1]` for the path at an operator. `rest` is the array
from index `i` on. -/
def redirectionReads : (rest : TokenArray) → (i : Nat) → List Nat
  | [], i => [i]
  | none :: _, i => [i]
  | some t :: rest, i =>
    if equal t "<" then [i, i + 1]
    else if equal t ">" then [i, i + 1]
    else i :: redirectionReads rest (i + 1)

end Shell

/-! # The sudoku checker (`Project2 Sudoku/sudoku.c`)

`checkPuzzle` starts one thread per row, column and box. Every thread reads the
grid and `psize_global`, which no thread writes, and stores its verdict in a slot
of `regionResults`; `checkPuzzle` reads the slots after joining the threads. The
embedding runs the threads one after the other, in the order of their creation,
and takes `pthread_create` and `malloc` to succeed. Sizes are taken to fit an
`int`, where `(int) sqrt(size)` is the integer square root. -/

namespace Sudoku

/-- The puzzle `int **grid`: `grid r c` is `grid[r][c]`; row 0 and column 0 are
not used. -/
abbrev Grid := Nat → Nat → Int

/-- A grid given by its rows, top row first; cells outside are `0`. -/
def gridOf (rows : List (List Int)) : Grid :=
  fun r c => ((rows.getD (r - 1) []).getD (c - 1) 0)

/-- A complete puzzle of size 4 whose rows and columns are right and whose boxes
are not. -/
def shifted4 : Grid :=
  gridOf [[1, 2, 3, 4], [2, 3, 4, 1], [3, 4, 1, 2], [4, 1, 2, 3]]

end Sudoku

/-! # The memory allocator (`P4 Contiguous Memory Allocation/Memo.c`)

The pool `char mem[MEMSIZE]` is a function from indices to bytes, of which the
code reads and writes the indices below `MEMSIZE` only. Sizes and indices are
natural numbers: the `int size` of the source is taken non-negative, and `malloc`
to succeed. -/

namespace Memo

/-- Constant `MEMSIZE` of Memo.h. -/
def MEMSIZE : Nat := 80

/-- Constant `FREE` of Memo.h. -/
def FREE : Char := '.'

/-- A free block `[s, e)`, the `PAIR` of Memo.h. -/
structure PAIR where
  s : Nat
  e : Nat
  deriving DecidableEq, Repr

/-- The pool: `mem i` is `mem[i]`. -/
abbrev Pool := Nat → Char

/-- The loop `while (j < MEMSIZE && mem[j] == FREE) ++j` of the three strategies:
the value of `j` when it ends. -/
def runEnd (mem : Pool) : (fuel : Nat) → (j : Nat) → Nat
  | 0, j => j
  | fuel + 1, j => if j < MEMSIZE ∧ mem j = FREE then runEnd mem fuel (j + 1) else j

/-- The loop of `doAllocFirst`, lines 32-48, from the test `i + size <= MEMSIZE`
on. The result is `some (some p)` for a returned `PAIR`, `some none` for `NULL`,
and `none` when the fuel runs out. -/
def firstLoop (mem : Pool) (size : Nat) : (fuel : Nat) → (i : Nat) → Option (Option PAIR)
  | 0, _ => none
  | fuel + 1, i =>
    if i + size ≤ MEMSIZE then
      if mem i ≠ FREE then firstLoop mem size fuel (i + 1)
      else
        let j := runEnd mem MEMSIZE i
        if size ≤ j - i then some (some { s := i, e := j })
        else firstLoop mem size fuel (j + 1)
    else some none

/-- Function `doAllocFirst(char* mem, int size)`. -/
def doAllocFirst (mem : Pool) (size : Nat) : Option (Option PAIR) :=
  firstLoop mem size (MEMSIZE + 2) 0

/-- The loop of `doAllocBest`, lines 58-67, and the return after it: `best` holds
`(bs, be)`, `none` standing for `bs = -1`. -/
def bestLoop (mem : Pool) (size : Nat) :
    (fuel : Nat) → (i : Nat) → (bestSize : Nat) → (best : Option PAIR) → Option (Option PAIR)
  | 0, _, _, _ => none
  | fuel + 1, i, bestSize, best =>
    if i < MEMSIZE then
      if mem i ≠ FREE then bestLoop mem size fuel (i + 1) bestSize best
      else
        let j := runEnd mem MEMSIZE i
        let block := j - i
        if size ≤ block ∧ block < bestSize then
          bestLoop mem size fuel (j + 1) block (some { s := i, e := j })
        else bestLoop mem size fuel (j + 1) bestSize best
    else some best

/-- Function `doAllocBest(char* mem, int size)`: `bestSize` starts at
`MEMSIZE + 1`. -/
def doAllocBest (mem : Pool) (size : Nat) : Option (Option PAIR) :=
  bestLoop mem size (MEMSIZE + 2) 0 (MEMSIZE + 1) none

/-- The loop of `doAllocWorst`, lines 82-98, and the return after it; `worstSize`
starts at `-1`. -/
def worstLoop (mem : Pool) (size : Nat) :
    (fuel : Nat) → (i : Nat) → (worstSize : Int) → (worst : Option PAIR) → Option (Option PAIR)
  | 0, _, _, _ => none
  | fuel + 1, i, worstSize, worst =>
    if i < MEMSIZE then
      if mem i ≠ FREE then worstLoop mem size fuel (i + 1) worstSize worst
      else
        let j := runEnd mem MEMSIZE i
        let block := j - i
        if size ≤ block ∧ worstSize < (block : Int) then
          worstLoop mem size fuel (j + 1) block (some { s := i, e := j })
        else worstLoop mem size fuel (j + 1) worstSize worst
    else some worst

/-- Function `doAllocWorst(char* mem, int size)`. -/
def doAllocWorst (mem : Pool) (size : Nat) : Option (Option PAIR) :=
  worstLoop mem size (MEMSIZE + 2) 0 (-1) none

/-- The loop of `stomp`: `for (i = start; i < start + size && i < MEMSIZE; ++i)
mem[i] = name`. -/
def stompLoop (name : Char) (start size : Nat) : (fuel : Nat) → (i : Nat) → Pool → Pool
  | 0, _, mem => mem
  | fuel + 1, i, mem =>
    if i < start + size ∧ i < MEMSIZE then
      stompLoop name start size fuel (i + 1) (fun k => if k = i then name else mem k)
    else mem

/-- Function `stomp(char* mem, char name, int start, int size)`; the loop makes at
most `size` rounds. -/
def stomp (mem : Pool) (name : Char) (start size : Nat) : Pool :=
  stompLoop name start size size start mem

/-- The block `p` that `doAlloc` gets from the strategy named by `algo`, lines
11-18; `NULL` for any other letter. -/
def chooseBlock (mem : Pool) (size : Nat) (algo : Char) : Option (Option PAIR) :=
  if algo = 'F' then doAllocFirst mem size
  else if algo = 'B' then doAllocBest mem size
  else if algo = 'W' then doAllocWorst mem size
  else some none

/-- The pool and the text printed by `doAlloc`. -/
structure Allocated where
  mem : Pool
  output : List String

/-- Function `doAlloc(char* mem, char name, int size, char algo)`. -/
def doAlloc (mem : Pool) (name : Char) (size : Nat) (algo : Char) : Option Allocated :=
  match chooseBlock mem size algo with
  | none => none
  | some (some p) => some { mem := stomp mem name p.s size, output := [] }
  | some none =>
    some { mem := mem, output := ["Cannot find " ++ toString size ++ " free bytes\n"] }

/-- The first loop of `doCompact`, lines 131-133, for `i = 0 .. n - 1`: the bytes
`buf[0 .. idx)` written so far. -/
def compactLoop (mem : Pool) : (n : Nat) → List Char
  | 0 => []
  | n + 1 =>
    if mem n ≠ FREE then compactLoop mem n ++ [mem n] else compactLoop mem n

/-- The second loop of `doCompact`: `while (idx < MEMSIZE) buf[idx++] = FREE`. -/
def fillLoop : (fuel : Nat) → (buf : List Char) → List Char
  | 0, buf => buf
  | fuel + 1, buf => if buf.length < MEMSIZE then fillLoop fuel (buf ++ [FREE]) else buf

/-- The call `memcpy(mem, buf, MEMSIZE)` of `doCompact`, line 139, for the bytes
`0 .. n - 1`. `buf` holds the bytes `buf[0 .. idx)` that the two loops have written
into `char buf[MEMSIZE]`; the array is not initialised, so a byte at or after `idx`
has no determined value, and a copy that reads one has no determined result:
`none`. -/
def memcpy (buf : List Char) : (n : Nat) → Pool → Option Pool
  | 0, mem => some mem
  | n + 1, mem =>
    match memcpy buf n mem, buf[n]? with
    | some copied, some c => some (fun k => if k = n then c else copied k)
    | _, _ => none

/-- Function `doCompact(char* mem)`: the pool it leaves, `none` if a byte copied
back was never written. -/
def doCompact (mem : Pool) : Option Pool :=
  memcpy (fillLoop MEMSIZE (compactLoop mem MEMSIZE)) MEMSIZE mem

/-- The bytes `mem[0 .. MEMSIZE)` of a pool. -/
def bytes (mem : Pool) : List Char := (List.range MEMSIZE).map mem

/-- The half-open range `[s, e)` is a maximal run of free bytes of the pool. -/
def MaximalFreeRun (mem : Pool) (s e : Nat) : Prop :=
  s < e ∧ e ≤ MEMSIZE ∧ (∀ k, s ≤ k → k < e → mem k = FREE) ∧
  (s = 0 ∨ mem (s - 1) ≠ FREE) ∧ (e = MEMSIZE ∨ mem e ≠ FREE)

/-- What the loop of `doAllocBest` knows when `i` is reached: `best` is the
smallest large-enough maximal free run that starts before `i`, the first of that
length, and `bestSize` its length. -/
def BestSoFar (mem : Pool) (size i bestSize : Nat) (best : Option PAIR) : Prop :=
  match best with
  | none => bestSize = MEMSIZE + 1 ∧ ∀ s e, MaximalFreeRun mem s e → s < i → e - s < size
  | some p =>
    MaximalFreeRun mem p.s p.e ∧ p.s < i ∧ bestSize = p.e - p.s ∧ size ≤ bestSize ∧
    ∀ s e, MaximalFreeRun mem s e → s < i → size ≤ e - s →
      bestSize < e - s ∨ (e - s = bestSize ∧ p.s ≤ s)

/-- The pool that starts with the given bytes and is free behind them. -/
def poolOf (text : String) : Pool := fun i => text.toList.getD i FREE

/-- A pool with free runs of 3, 5 and 2 bytes between allocations, and free from
byte 16 on. -/
def samplePool : Pool := poolOf "AA...BB.....C..D"

end Memo

namespace Shell

/-! ## The tokenizer and the segmenter -/

/-- A callee reads back from a NULL-terminated array the tokens it holds. -/
theorem argv_cArray (ts : List String) : argv (cArray ts) = ts := by
  induction ts with
  | nil => rfl
  | cons t ts ih => simpa [cArray, argv] using ih

/-- The tokenizing loop keeps the tokens found while `token_count` is below
`MAX_TOKENS - 1`. -/
theorem tokenLoop_eq_take (found : List String) (k : Nat) :
    tokenLoop found k = found.take (MAX_TOKENS - 1 - k) := by
  induction found generalizing k with
  | nil => simp [tokenLoop]
  | cons t found ih =>
    unfold tokenLoop
    by_cases h : k < MAX_TOKENS - 1
    · have e : MAX_TOKENS - 1 - k = (MAX_TOKENS - 1 - (k + 1)) + 1 := by omega
      rw [if_pos h, ih, e, List.take_succ_cons]
    · have e : MAX_TOKENS - 1 - k = 0 := by omega
      rw [if_neg h, e, List.take_zero]

/-- The tokens kept are the first `MAX_TOKENS - 1` tokens of the line. -/
theorem tokenize_eq_take (line : String) :
    tokenize line = (words line).take (MAX_TOKENS - 1) := by
  simp [tokenize, tokenLoop_eq_take]

/-- The inner loop goes on exactly on tokens other than `;` and `&`. -/
theorem inSegment_iff (t : String) : inSegment t = true ↔ t ≠ ";" ∧ t ≠ "&" := by
  simp [inSegment, equal]

/-- One round of the segmenting loop that ends at a separator. -/
theorem segmentLoop_step (fuel : Nat) (seg : List String) (sep : String) (rest : List String)
    (n : Nat) (hseg : ∀ t ∈ seg, inSegment t = true) (hsep : inSegment sep = false) :
    segmentLoop (fuel + 1) (seg ++ sep :: rest) n =
      if n < MAX_SEGMENTS then
        match segmentLoop fuel rest (n + 1) with
        | .ok segs => .ok ({ tokens := cArray seg, background := equal sep "&" } :: segs)
        | .error f => .error f
      else .error (.segments_overflow n) := by
  have htake : (seg ++ sep :: rest).takeWhile inSegment = seg := by
    rw [List.takeWhile_append_of_pos hseg]; simp [hsep]
  have hdrop : (seg ++ sep :: rest).dropWhile inSegment = sep :: rest := by
    rw [List.dropWhile_append_of_pos hseg]; simp [hsep]
  cases hts : seg ++ sep :: rest with
  | nil => simp at hts
  | cons t ts =>
    rw [hts] at htake hdrop
    simp only [segmentLoop, htake, hdrop, List.drop_succ_cons, List.drop_zero]

/-- The last round of the segmenting loop, when no separator is left. -/
theorem segmentLoop_last (fuel : Nat) (seg : List String) (n : Nat) (hne : seg ≠ [])
    (hseg : ∀ t ∈ seg, inSegment t = true) :
    segmentLoop (fuel + 1) seg n =
      if n < MAX_SEGMENTS then .ok [{ tokens := cArray seg, background := false }]
      else .error (.segments_overflow n) := by
  have htake : seg.takeWhile inSegment = seg := by
    rw [List.takeWhile_eq_self_iff]; exact hseg
  have hdrop : seg.dropWhile inSegment = [] := by
    rw [List.dropWhile_eq_nil_iff]; exact hseg
  cases hts : seg with
  | nil => exact absurd hts hne
  | cons t ts =>
    rw [hts] at htake hdrop
    simp only [segmentLoop, htake, hdrop, List.drop_nil]

/-- C1 (counterexample): a line of blanks has no token and yields no segment at
all, and of a line of forty plain words the single segment holds the first
thirty-nine only, not the full token sequence. -/
theorem plain_line_counterexample :
    (words " " = [] ∧ segmentLine " " = .ok []) ∧
    (words fortyWords = List.replicate 40 "a" ∧
      segmentLine fortyWords =
        .ok [{ tokens := cArray (List.replicate 39 "a"), background := false }]) := by
  refine ⟨⟨by decide, by rfl⟩, by decide, by rfl⟩

/-- C1 (amended): for every line with at least one token and none of `;`, `&`,
`|` among its tokens, the segmenter stores exactly one segment, it is foreground,
and its tokens are the first `MAX_TOKENS - 1 = 39` tokens of the line: the full
token sequence when the line has at most 39 tokens. -/
theorem plain_line_single_segment (line : String) (hne : words line ≠ [])
    (hplain : ∀ t ∈ words line, t ≠ ";" ∧ t ≠ "&" ∧ t ≠ "|") :
    ∃ seg, segmentLine line = .ok [seg] ∧ seg.background = false ∧
      seg.tokens = cArray ((words line).take (MAX_TOKENS - 1)) ∧
      argv seg.tokens = (words line).take (MAX_TOKENS - 1) ∧
      ((words line).length ≤ MAX_TOKENS - 1 → argv seg.tokens = words line) := by
  have hkept : tokenize line ≠ [] := by
    rw [tokenize_eq_take]
    cases h : words line with
    | nil => exact absurd h hne
    | cons t ts => simp [MAX_TOKENS]
  have hseg : ∀ t ∈ tokenize line, inSegment t = true := by
    intro t ht
    rw [tokenize_eq_take] at ht
    have := hplain t (List.mem_of_mem_take ht)
    exact (inSegment_iff t).2 ⟨this.1, this.2.1⟩
  refine ⟨{ tokens := cArray (tokenize line), background := false }, ?_, rfl, ?_, ?_, ?_⟩
  · unfold segmentLine
    obtain ⟨k, hk⟩ : ∃ k, (tokenize line).length = k + 1 := by
      cases h : tokenize line with
      | nil => exact absurd h hkept
      | cons t ts => exact ⟨ts.length, rfl⟩
    rw [hk, segmentLoop_last k _ 0 hkept hseg]
    simp [MAX_SEGMENTS]
  · rw [tokenize_eq_take]
  · rw [argv_cArray, tokenize_eq_take]
  · intro hlen
    rw [argv_cArray, tokenize_eq_take, List.take_of_length_le hlen]

/-- The amended C1 at the test line `ls -al`. -/
theorem plain_line_single_segment_witness :
    words "ls -al" ≠ [] ∧ (∀ t ∈ words "ls -al", t ≠ ";" ∧ t ≠ "&" ∧ t ≠ "|") ∧
    ∃ seg, segmentLine "ls -al" = .ok [seg] ∧ seg.background = false ∧
      seg.tokens = cArray ((words "ls -al").take (MAX_TOKENS - 1)) ∧
      argv seg.tokens = (words "ls -al").take (MAX_TOKENS - 1) ∧
      ((words "ls -al").length ≤ MAX_TOKENS - 1 → argv seg.tokens = words "ls -al") :=
  ⟨by decide, by decide, plain_line_single_segment "ls -al" (by decide) (by decide)⟩

/-- The token at which the inner loop stops fails its condition. -/
theorem dropWhile_head_false (p : String → Bool) (l : List String) (a : String)
    (r : List String) (h : l.dropWhile p = a :: r) : p a = false := by
  induction l with
  | nil => simp at h
  | cons x xs ih =>
    by_cases hx : p x = true
    · rw [List.dropWhile_cons_of_pos hx] at h; exact ih h
    · rw [List.dropWhile_cons_of_neg hx] at h
      injection h with h1 _
      subst h1; simpa using hx

/-- Every list of tokens is a segment followed by nothing or by a separator and
the remaining tokens. -/
theorem split_at_separator (ts : List String) :
    (∀ t ∈ ts.takeWhile inSegment, inSegment t = true) ∧
    ((ts.dropWhile inSegment = [] ∧ ts = ts.takeWhile inSegment) ∨
     ∃ sep rest, ts.dropWhile inSegment = sep :: rest ∧ inSegment sep = false ∧
       ts = ts.takeWhile inSegment ++ sep :: rest) := by
  refine ⟨fun t ht => List.mem_takeWhile_imp ht, ?_⟩
  cases h : ts.dropWhile inSegment with
  | nil =>
    left
    refine ⟨rfl, ?_⟩
    have := List.takeWhile_append_dropWhile inSegment ts
    rw [h, List.append_nil] at this
    exact this.symm
  | cons sep rest =>
    right
    refine ⟨sep, rest, rfl, dropWhile_head_false _ _ _ _ h, ?_⟩
    have := List.takeWhile_append_dropWhile inSegment ts
    rw [h] at this
    exact this.symm

/-- Unfolding of one round of the segmenting loop on a non-empty rest. -/
theorem segmentLoop_succ (fuel : Nat) (t : String) (ts : List String) (n : Nat) :
    segmentLoop (fuel + 1) (t :: ts) n =
      if n < MAX_SEGMENTS then
        match segmentLoop fuel (((t :: ts).dropWhile inSegment).drop 1) (n + 1) with
        | .ok segs =>
          .ok ({ tokens := cArray ((t :: ts).takeWhile inSegment),
                 background :=
                   match (t :: ts).dropWhile inSegment with
                   | [] => false
                   | sep :: _ => equal sep "&" } :: segs)
        | .error f => .error f
      else .error (.segments_overflow n) := by
  simp only [segmentLoop]

/-- Every round of the segmenting loop consumes at least one token. -/
theorem length_after_separator (ts : List String) (hne : ts ≠ []) :
    ((ts.dropWhile inSegment).drop 1).length < ts.length := by
  rcases (split_at_separator ts).2 with ⟨h, _⟩ | ⟨sep, rest, h, _, hts⟩
  · rw [h]; simp; exact List.length_pos.2 hne
  · rw [h]
    have : ts.length = (ts.takeWhile inSegment).length + (rest.length + 1) := by
      conv_lhs => rw [hts]
      simp
    simp; omega

/-- What the segmenting loop stores: segments free of separators whose tokens,
put end to end, are the tokens that are not separators. -/
theorem segmentLoop_sound (fuel : Nat) : ∀ (ts : List String) (n : Nat) (segs : List Segment),
    segmentLoop fuel ts n = .ok segs →
      (∀ s ∈ segs, ∀ t ∈ argv s.tokens, inSegment t = true) ∧
      (segs.map (fun s => argv s.tokens)).flatten = ts.filter inSegment := by
  induction fuel with
  | zero =>
    intro ts n segs h
    cases ts with
    | nil => simp [segmentLoop] at h; subst h; simp
    | cons t ts => simp [segmentLoop] at h
  | succ fuel ih =>
    intro ts n segs h
    cases ts with
    | nil => simp [segmentLoop] at h; subst h; simp
    | cons t ts =>
      rw [segmentLoop_succ] at h
      split at h
      · split at h
        · rename_i hn segs2 hrec
          injection h with h
          subst h
          obtain ⟨ih1, ih2⟩ := ih _ _ _ hrec
          obtain ⟨hseg, hsplit⟩ := split_at_separator (t :: ts)
          refine ⟨?_, ?_⟩
          · intro s hs
            rcases List.mem_cons.1 hs with rfl | hs
            · simpa [argv_cArray] using hseg
            · exact ih1 s hs
          · simp only [List.map_cons, List.flatten_cons, argv_cArray, ih2]
            have hfs : ((t :: ts).takeWhile inSegment).filter inSegment =
                (t :: ts).takeWhile inSegment := List.filter_eq_self.2 hseg
            rcases hsplit with ⟨hd, _⟩ | ⟨sep, rest, hd, hsep, _⟩
            · have e := List.takeWhile_append_dropWhile inSegment (t :: ts)
              conv_rhs => rw [← e, List.filter_append, hfs]
              rw [hd]; simp
            · have e := List.takeWhile_append_dropWhile inSegment (t :: ts)
              conv_rhs => rw [← e, List.filter_append, hfs]
              rw [hd]; simp [hsep]
        · simp at h
      · simp at h

/-- The segmenting loop never runs out of fuel: started with an index within the
array it either stores its segments or overruns `segments` at `MAX_SEGMENTS`. -/
theorem segmentLoop_error (fuel : Nat) : ∀ (ts : List String) (n : Nat) (f : Fault),
    ts.length ≤ fuel → n ≤ MAX_SEGMENTS → segmentLoop fuel ts n = .error f →
      f = .segments_overflow MAX_SEGMENTS := by
  induction fuel with
  | zero =>
    intro ts n f hlen _ h
    cases ts with
    | nil => simp [segmentLoop] at h
    | cons t ts => simp at hlen
  | succ fuel ih =>
    intro ts n f hlen hn h
    cases ts with
    | nil => simp [segmentLoop] at h
    | cons t ts =>
      rw [segmentLoop_succ] at h
      have hl := length_after_separator (t :: ts) (by simp)
      split at h
      · split at h
        · simp at h
        · rename_i hlt f2 hrec
          injection h with h
          subst h
          exact ih _ _ _ (by omega) (by omega) hrec
      · rename_i hge
        injection h with h
        subst h
        have : n = MAX_SEGMENTS := by omega
        rw [this]

/-- With fewer than `MAX_SEGMENTS` separators left the loop stores its segments. -/
theorem segmentLoop_ok (fuel : Nat) : ∀ (ts : List String) (n : Nat),
    ts.length ≤ fuel →
    (ts ≠ [] → ts.countP (fun t => !inSegment t) + n < MAX_SEGMENTS) →
      ∃ segs, segmentLoop fuel ts n = .ok segs := by
  induction fuel with
  | zero =>
    intro ts n hlen _
    cases ts with
    | nil => exact ⟨[], by simp [segmentLoop]⟩
    | cons t ts => simp at hlen
  | succ fuel ih =>
    intro ts n hlen hcount
    cases ts with
    | nil => exact ⟨[], by simp [segmentLoop]⟩
    | cons t ts =>
      have hc := hcount (by simp)
      have hl := length_after_separator (t :: ts) (by simp)
      have hrec : ∃ segs, segmentLoop fuel (((t :: ts).dropWhile inSegment).drop 1) (n + 1)
          = .ok segs := by
        apply ih _ _ (by omega)
        intro hne
        rcases (split_at_separator (t :: ts)).2 with ⟨hd, _⟩ | ⟨sep, rest, hd, hsep, hts⟩
        · rw [hd] at hne; simp at hne
        · rw [hd]
          simp only [List.drop_succ_cons, List.drop_zero]
          have : (t :: ts).countP (fun t => !inSegment t) =
              ((t :: ts).takeWhile inSegment).countP (fun t => !inSegment t) +
                (rest.countP (fun t => !inSegment t) + 1) := by
            conv_lhs => rw [hts]
            rw [List.countP_append, List.countP_cons]
            simp [hsep]
          omega
      obtain ⟨segs, hsegs⟩ := hrec
      rw [segmentLoop_succ, if_pos (by omega), hsegs]
      exact ⟨_, rfl⟩

/-- C2 (counterexample): with `A` thirty-eight words and `B = b`, the line `A & b`
has forty tokens and yields the single segment `A`, in the background: `b` is
beyond the thirty-nine tokens kept. -/
theorem background_counterexample :
    words longBackgroundLine = List.replicate 38 "a" ++ "&" :: ["b"] ∧
    segmentLine longBackgroundLine =
      .ok [{ tokens := cArray (List.replicate 38 "a"), background := true }] := by
  refine ⟨by decide, by rfl⟩

/-- C2 (amended): for all token sequences `A` and `B` without `;` and `&`, `B`
non-empty, such that `A & B` has at most `MAX_TOKENS - 1 = 39` tokens, the line
`A & B`, with or without one trailing `;`, yields exactly two segments: `A` in the
background, then `B` in the foreground. -/
theorem background_then_foreground (line : String) (A B trail : List String)
    (hline : words line = A ++ "&" :: B ++ trail)
    (htrail : trail = [] ∨ trail = [";"])
    (hA : ∀ t ∈ A, t ≠ ";" ∧ t ≠ "&") (hB : ∀ t ∈ B, t ≠ ";" ∧ t ≠ "&") (hBne : B ≠ [])
    (hlen : A.length + 1 + B.length ≤ MAX_TOKENS - 1) :
    segmentLine line =
      .ok [{ tokens := cArray A, background := true },
           { tokens := cArray B, background := false }] := by
  have hA2 : ∀ t ∈ A, inSegment t = true := fun t ht => (inSegment_iff t).2 (hA t ht)
  have hB2 : ∀ t ∈ B, inSegment t = true := fun t ht => (inSegment_iff t).2 (hB t ht)
  have hamp : inSegment "&" = false := by decide
  have hsemi : inSegment ";" = false := by decide
  obtain ⟨b, B2, rfl⟩ : ∃ b B2, B = b :: B2 := by
    cases B with
    | nil => exact absurd rfl hBne
    | cons b B2 => exact ⟨b, B2, rfl⟩
  have hAB : (A ++ "&" :: (b :: B2)).length = A.length + 1 + (b :: B2).length := by
    simp; omega
  -- the tokens kept: `A & B`, with the trailing `;` when it fits
  have hkept : tokenize line = A ++ "&" :: (b :: B2) ∨
      tokenize line = A ++ "&" :: ((b :: B2) ++ [";"]) := by
    rw [tokenize_eq_take, hline]
    rcases htrail with rfl | rfl
    · left
      rw [List.append_nil]
      exact List.take_of_length_le (by rw [hAB]; exact hlen)
    · by_cases hfit : A.length + 1 + (b :: B2).length + 1 ≤ MAX_TOKENS - 1
      · right
        have e : A ++ "&" :: (b :: B2) ++ [";"] = A ++ "&" :: ((b :: B2) ++ [";"]) := by simp
        rw [e]
        apply List.take_of_length_le
        simp at hfit ⊢; omega
      · left
        have e : MAX_TOKENS - 1 = (A ++ "&" :: (b :: B2)).length := by
          rw [hAB]; omega
        rw [e, List.take_left]
  unfold segmentLine
  rcases hkept with hk | hk
  · rw [hk]
    have hl : (A ++ "&" :: (b :: B2)).length = (A.length + B2.length) + 1 + 1 := by
      simp; omega
    rw [hl, segmentLoop_step _ A "&" (b :: B2) 0 hA2 hamp,
      segmentLoop_last _ (b :: B2) 1 (by simp) hB2]
    simp [MAX_SEGMENTS, equal]
  · rw [hk]
    have hl : (A ++ "&" :: ((b :: B2) ++ [";"])).length = (A.length + B2.length + 1) + 1 + 1 := by
      simp; omega
    rw [hl, segmentLoop_step _ A "&" ((b :: B2) ++ [";"]) 0 hA2 hamp,
      segmentLoop_step _ (b :: B2) ";" [] 1 hB2 hsemi]
    simp [MAX_SEGMENTS, equal, segmentLoop]

/-- The amended C2 at the test line `ls & whoami ;`. -/
theorem background_then_foreground_witness :
    segmentLine "ls & whoami ;" =
      .ok [{ tokens := cArray ["ls"], background := true },
           { tokens := cArray ["whoami"], background := false }] :=
  background_then_foreground "ls & whoami ;" ["ls"] ["whoami"] [";"] (by decide)
    (Or.inr rfl) (by decide) (by decide) (by decide) (by decide)

/-- C3 (counterexample): the segments of a line of forty plain words hold
thirty-nine tokens, one fewer than the line's token sequence without separators. -/
theorem segments_partition_counterexample :
    withoutSeparators (words fortyWords) = List.replicate 40 "a" ∧
    ∃ segs, segmentLine fortyWords = .ok segs ∧
      (segs.map (fun s => argv s.tokens)).flatten = List.replicate 39 "a" :=
  ⟨by decide, [{ tokens := cArray (List.replicate 39 "a"), background := false }], by rfl,
    by decide⟩

/-- C3 (amended): for every input line the segmenter either stores its segments or
overruns the `segments` array, and it stores them when the tokens kept hold fewer
than `MAX_SEGMENTS` separators; whenever it stores them, no segment contains `;` or
`&`, and the segments' tokens put end to end are the first `MAX_TOKENS - 1 = 39`
tokens of the line with every `;` and `&` deleted. -/
theorem segments_partition_tokens (line : String) :
    (∀ f, segmentLine line = .error f → f = .segments_overflow MAX_SEGMENTS) ∧
    (((words line).take (MAX_TOKENS - 1)).countP (fun t => decide (t = ";" ∨ t = "&"))
        < MAX_SEGMENTS → ∃ segs, segmentLine line = .ok segs) ∧
    (∀ segs, segmentLine line = .ok segs →
      (∀ s ∈ segs, ";" ∉ argv s.tokens ∧ "&" ∉ argv s.tokens) ∧
      (segs.map (fun s => argv s.tokens)).flatten =
        withoutSeparators ((words line).take (MAX_TOKENS - 1))) := by
  refine ⟨?_, ?_, ?_⟩
  · intro f h
    exact segmentLoop_error _ _ 0 f (Nat.le_refl _) (Nat.zero_le _) h
  · intro hcount
    apply segmentLoop_ok _ _ 0 (Nat.le_refl _)
    intro _
    rw [tokenize_eq_take]
    have e : (fun t => !inSegment t) = (fun t : String => decide (t = ";" ∨ t = "&")) := by
      funext t
      by_cases h1 : t = ";" <;> by_cases h2 : t = "&" <;> simp [inSegment, equal, h1, h2]
    rw [e]
    exact hcount
  · intro segs h
    obtain ⟨h1, h2⟩ := segmentLoop_sound _ _ 0 segs h
    refine ⟨?_, ?_⟩
    · intro s hs
      refine ⟨fun hmem => ?_, fun hmem => ?_⟩
      · have := h1 s hs _ hmem
        simp [inSegment, equal] at this
      · have := h1 s hs _ hmem
        simp [inSegment, equal] at this
    · rw [h2, tokenize_eq_take]
      have e : inSegment = (fun t : String => decide (t ≠ ";" ∧ t ≠ "&")) := by
        funext t
        by_cases h1 : t = ";" <;> by_cases h2 : t = "&" <;> simp [inSegment, equal, h1, h2]
      rw [withoutSeparators, e]

/-- The amended C3 at the test line `ls & whoami ;`. -/
theorem segments_partition_tokens_witness :
    segmentLine "ls & whoami ;" =
      .ok [{ tokens := cArray ["ls"], background := true },
           { tokens := cArray ["whoami"], background := false }] ∧
    (∀ s ∈ [({ tokens := cArray ["ls"], background := true } : Segment),
            { tokens := cArray ["whoami"], background := false }],
      ";" ∉ argv s.tokens ∧ "&" ∉ argv s.tokens) ∧
    ([({ tokens := cArray ["ls"], background := true } : Segment),
      { tokens := cArray ["whoami"], background := false }].map
        (fun s => argv s.tokens)).flatten =
      withoutSeparators ((words "ls & whoami ;").take (MAX_TOKENS - 1)) :=
  ⟨by rfl, (segments_partition_tokens "ls & whoami ;").2.2 _ (by rfl)⟩

/-! ## The redirection scan -/

/-- The redirection scan steps over tokens that are not operators. -/
theorem redirectionScan_skip (pre : List String) (hpre : ∀ t ∈ pre, t ≠ "<" ∧ t ≠ ">") :
    ∀ (before rest : TokenArray) (i : Nat),
      redirectionScan before (pre.map some ++ rest) i =
        redirectionScan (before ++ pre.map some) rest (i + pre.length) := by
  induction pre with
  | nil => intro before rest i; simp
  | cons t pre ih =>
    intro before rest i
    have ht := hpre t (List.mem_cons_self _ _)
    have hrest : ∀ u ∈ pre, u ≠ "<" ∧ u ≠ ">" := fun u hu => hpre u (List.mem_cons_of_mem _ hu)
    have step : redirectionScan before (some t :: (pre.map some ++ rest)) i =
        redirectionScan (before ++ [some t]) (pre.map some ++ rest) (i + 1) := by
      simp [redirectionScan, equal, ht.1, ht.2]
    rw [List.map_cons, List.cons_append, step, ih hrest]
    simp [Nat.add_comm, Nat.add_left_comm]

/-- The result of the redirection scan on a segment split at its first operator,
and on a segment without operator. -/
theorem redirectionScan_first_operator (pre post : List String)
    (hpre : ∀ t ∈ pre, t ≠ "<" ∧ t ≠ ">") :
    redirectionScan [] (cArray (pre ++ "<" :: post)) 0 =
      .ok { input_file := post.head?, output_file := none,
            tokens := pre.map some ++ none :: cArray post } ∧
    redirectionScan [] (cArray (pre ++ ">" :: post)) 0 =
      .ok { input_file := none, output_file := post.head?,
            tokens := pre.map some ++ none :: cArray post } ∧
    redirectionScan [] (cArray pre) 0 =
      .ok { input_file := none, output_file := none, tokens := cArray pre } := by
  have e : ∀ op : String, cArray (pre ++ op :: post) = pre.map some ++ (some op :: cArray post) := by
    intro op; simp [cArray]
  refine ⟨?_, ?_, ?_⟩
  · rw [e, redirectionScan_skip pre hpre]
    cases post <;> simp [redirectionScan, equal, cArray]
  · rw [e, redirectionScan_skip pre hpre]
    cases post <;> simp [redirectionScan, equal, cArray]
  · have e2 : cArray pre = pre.map some ++ [none] := rfl
    rw [e2, redirectionScan_skip pre hpre]
    simp [redirectionScan]

/-- C4: in a segment `pre op post` whose tokens `pre` hold no `<` and no `>`, the
scan stops at `op`: for `<` the input path is the token right after it (`NULL` if
there is none) and no output path is set, for `>` the output path is that token and
no input path is set, whatever operators `post` holds; a segment without operator
sets neither path. -/
theorem redirection_first_operator (pre post : List String)
    (hpre : ∀ t ∈ pre, t ≠ "<" ∧ t ≠ ">") :
    redirectionScan [] (cArray (pre ++ "<" :: post)) 0 =
      .ok { input_file := post.head?, output_file := none,
            tokens := pre.map some ++ none :: cArray post } ∧
    redirectionScan [] (cArray (pre ++ ">" :: post)) 0 =
      .ok { input_file := none, output_file := post.head?,
            tokens := pre.map some ++ none :: cArray post } ∧
    redirectionScan [] (cArray pre) 0 =
      .ok { input_file := none, output_file := none, tokens := cArray pre } :=
  redirectionScan_first_operator pre post hpre

/-- C4 at the segment `sort < in.txt > out.txt` and its `>` variant. -/
theorem redirection_first_operator_witness :
    redirectionScan [] (cArray (["sort"] ++ "<" :: ["in.txt", ">", "out.txt"])) 0 =
      .ok { input_file := ["in.txt", ">", "out.txt"].head?, output_file := none,
            tokens := ["sort"].map some ++ none :: cArray ["in.txt", ">", "out.txt"] } ∧
    redirectionScan [] (cArray (["sort"] ++ ">" :: ["in.txt", ">", "out.txt"])) 0 =
      .ok { input_file := none, output_file := ["in.txt", ">", "out.txt"].head?,
            tokens := ["sort"].map some ++ none :: cArray ["in.txt", ">", "out.txt"] } ∧
    redirectionScan [] (cArray ["sort"]) 0 =
      .ok { input_file := none, output_file := none, tokens := cArray ["sort"] } :=
  redirection_first_operator ["sort"] ["in.txt", ">", "out.txt"] (by decide)

/-! ## `execute_single_command`, `execute_pipeline` and the dispatch loop -/

/-- The array of a left side: the tokens `pre`, the `NULL` written over `|`, and
the rest of the block. -/
theorem argv_left (pre : List String) (rest : TokenArray) :
    argv (pre.map some ++ none :: rest) = pre := by
  induction pre with
  | nil => rfl
  | cons t pre ih => simp [argv, ih]

/-- On a NULL-terminated array the redirection scan reads inside the array,
whatever follows the terminator in the block. -/
theorem redirectionScan_ok (ts : List String) (tail : TokenArray) :
    ∀ (before : TokenArray) (i : Nat),
      ∃ r, redirectionScan before (ts.map some ++ none :: tail) i = .ok r := by
  induction ts with
  | nil => intro before i; exact ⟨_, rfl⟩
  | cons t ts ih =>
    intro before i
    simp only [List.map_cons, List.cons_append, redirectionScan]
    split
    · cases ts <;> exact ⟨_, rfl⟩
    · split
      · cases ts <;> exact ⟨_, rfl⟩
      · exact ih _ _

/-- The parent branch of `execute_single_command` after a successful `fork`. -/
theorem forkAndLaunch_parent (sys : Sys) (tokens : TokenArray) (background : Bool) (n : Nat)
    (r : Redirection) (hscan : redirectionScan [] tokens 0 = .ok r) (hpid : 0 < sys.fork n) :
    forkAndLaunch sys tokens background n =
      { events := .fork (sys.fork n) :: (if background then [] else [.waitpid (sys.fork n)]),
        calls := n + 1, outcome := .returned } := by
  have h0 : sys.fork n ≠ 0 := by omega
  have h1 : ¬ sys.fork n < 0 := by omega
  cases background <;> simp [forkAndLaunch, hscan, h0, hpid, h1]

/-- The child branch of `execute_single_command`. -/
theorem forkAndLaunch_child (sys : Sys) (tokens : TokenArray) (background : Bool) (n : Nat)
    (r : Redirection) (hscan : redirectionScan [] tokens 0 = .ok r) (hpid : sys.fork n = 0) :
    forkAndLaunch sys tokens background n =
      { events := .fork 0 :: (childLaunch sys r).1, calls := n + 1,
        outcome := (childLaunch sys r).2 } := by
  simp [forkAndLaunch, hscan, hpid]

/-- The branch of `execute_single_command` after a failed `fork`. -/
theorem forkAndLaunch_failed (sys : Sys) (tokens : TokenArray) (background : Bool) (n : Nat)
    (r : Redirection) (hscan : redirectionScan [] tokens 0 = .ok r) (hpid : sys.fork n < 0) :
    forkAndLaunch sys tokens background n =
      { events := [.fork (sys.fork n), .perror "fork"], calls := n + 1,
        outcome := .returned } := by
  have h0 : sys.fork n ≠ 0 := by omega
  have h1 : ¬ 0 < sys.fork n := by omega
  simp [forkAndLaunch, hscan, h0, hpid, h1]

/-- `execute_single_command` on tokens that are neither empty nor the lone
word `ascii` goes on to the redirection scan and `fork`. -/
theorem execute_single_command_launch (sys : Sys) (ts : List String) (tail : TokenArray)
    (background : Bool) (n : Nat) (hne : ts ≠ []) (hascii : ts ≠ ["ascii"]) :
    execute_single_command sys (ts.map some ++ none :: tail) background n =
      { forkAndLaunch sys (ts.map some ++ none :: tail) background n with
        events := .enter_single ts background ::
          (forkAndLaunch sys (ts.map some ++ none :: tail) background n).events } := by
  cases ts with
  | nil => exact absurd rfl hne
  | cons t ts =>
    have hargv : argv (some t :: (ts.map some ++ none :: tail)) = t :: ts := by
      have := argv_left (t :: ts) tail
      simpa using this
    by_cases ht : t = "ascii"
    · subst ht
      cases ts with
      | nil => exact absurd rfl hascii
      | cons u us =>
        simp [execute_single_command, equal, argv]
        exact argv_left us tail
    · simp [execute_single_command, equal, ht, hargv]

/-- C5 (counterexample): on the segment `cat <` the shell reports nothing and
skips nothing: it calls `fork` and waits for the child, and the child launches
`cat` with no redirection. -/
theorem dangling_operator_counterexample :
    execute_single_command parentSys (cArray ["cat", "<"]) false 0 =
      { events := [.enter_single ["cat", "<"] false, .fork 7, .waitpid 7],
        calls := 1, outcome := .returned } ∧
    execute_single_command childSys (cArray ["cat", "<"]) false 0 =
      { events := [.enter_single ["cat", "<"] false, .fork 0,
                   .execvp (some "cat") ["cat"]],
        calls := 1, outcome := .replaced } := by
  refine ⟨by decide, by decide⟩

/-- C5 (amended): for every segment whose first redirection operator is its last
token and not its first, `execute_single_command` reports no parse error and does
not skip the segment: no path is set, `fork` is called, the shell waits for the
child when the segment is foreground, and the child calls `execvp` on the tokens
before the operator with no redirection; the only diagnostics are those of a
failed `fork` or `execvp`. -/
theorem dangling_operator_launches (sys : Sys) (prog : String) (args : List String)
    (op : String) (background : Bool) (n : Nat)
    (hpre : ∀ t ∈ prog :: args, t ≠ "<" ∧ t ≠ ">") (hop : op = "<" ∨ op = ">") :
    (0 < sys.fork n →
      execute_single_command sys (cArray (prog :: args ++ [op])) background n =
        { events := .enter_single (prog :: args ++ [op]) background :: .fork (sys.fork n) ::
            (if background then [] else [.waitpid (sys.fork n)]),
          calls := n + 1, outcome := .returned }) ∧
    (sys.fork n = 0 →
      execute_single_command sys (cArray (prog :: args ++ [op])) background n =
        { events := .enter_single (prog :: args ++ [op]) background :: .fork 0 ::
            .execvp (some prog) (prog :: args) ::
            (if sys.exec_ok prog (prog :: args) then []
             else [.perror "execvp", .exit EXIT_FAILURE]),
          calls := n + 1,
          outcome := if sys.exec_ok prog (prog :: args) then .replaced
                     else .exited EXIT_FAILURE }) ∧
    (sys.fork n < 0 →
      execute_single_command sys (cArray (prog :: args ++ [op])) background n =
        { events := [.enter_single (prog :: args ++ [op]) background, .fork (sys.fork n),
                     .perror "fork"],
          calls := n + 1, outcome := .returned }) := by
  have hne : prog :: args ++ [op] ≠ [] := by simp
  have hascii : prog :: args ++ [op] ≠ ["ascii"] := by
    cases args <;> simp
  have hscan : redirectionScan [] (cArray (prog :: args ++ [op])) 0 =
      .ok { input_file := none, output_file := none,
            tokens := (prog :: args).map some ++ none :: cArray [] } := by
    rcases hop with rfl | rfl
    · exact (redirectionScan_first_operator (prog :: args) [] hpre).1
    · exact (redirectionScan_first_operator (prog :: args) [] hpre).2.1
  have hargv : argv ((prog :: args).map some ++ none :: cArray []) = prog :: args := by
    have : ∀ l : List String, argv (l.map some ++ none :: cArray []) = l := by
      intro l
      induction l with
      | nil => rfl
      | cons x xs ih => simpa [argv] using ih
    exact this _
  have hlaunch := execute_single_command_launch sys _ [] background n hne hascii
  have hblock : (prog :: args ++ [op]).map some ++ none :: [] = cArray (prog :: args ++ [op]) := rfl
  rw [hblock] at hlaunch
  rw [hlaunch]
  refine ⟨fun hpid => ?_, fun hpid => ?_, fun hpid => ?_⟩
  · rw [forkAndLaunch_parent sys _ background n _ hscan hpid]
  · rw [forkAndLaunch_child sys _ background n _ hscan hpid]
    have hargv2 : argv (some prog :: (args.map some ++ none :: cArray [])) = prog :: args := by
      simpa using hargv
    by_cases hx : sys.exec_ok prog (prog :: args) = true
    · simp [childLaunch, hargv2, hx]
    · simp [childLaunch, hargv2, hx]
  · rw [forkAndLaunch_failed sys _ background n _ hscan hpid]

/-- The amended C5 at the segment `cat -n >`, followed in the child. -/
theorem dangling_operator_launches_witness :
    (∀ t ∈ "cat" :: ["-n"], t ≠ "<" ∧ t ≠ ">") ∧ childSys.fork 0 = 0 ∧
    execute_single_command childSys (cArray ("cat" :: ["-n"] ++ [">"])) true 0 =
      { events := .enter_single ("cat" :: ["-n"] ++ [">"]) true :: .fork 0 ::
          .execvp (some "cat") ("cat" :: ["-n"]) ::
          (if childSys.exec_ok "cat" ("cat" :: ["-n"]) then []
           else [.perror "execvp", .exit EXIT_FAILURE]),
        calls := 0 + 1,
        outcome := if childSys.exec_ok "cat" ("cat" :: ["-n"]) then .replaced
                   else .exited EXIT_FAILURE } :=
  ⟨by decide, rfl,
   (dangling_operator_launches childSys "cat" ["-n"] ">" true 0 (by decide) (Or.inr rfl)).2.1 rfl⟩

/-- The scan for `|` steps over tokens that are not `|`. -/
theorem findPipe_skip (pre : List String) (hpre : ∀ t ∈ pre, t ≠ "|") :
    ∀ (rest : TokenArray) (i : Nat),
      findPipe (pre.map some ++ rest) i = findPipe rest (i + pre.length) := by
  induction pre with
  | nil => intro rest i; simp
  | cons t pre ih =>
    intro rest i
    have ht := hpre t (List.mem_cons_self _ _)
    have hrest : ∀ u ∈ pre, u ≠ "|" := fun u hu => hpre u (List.mem_cons_of_mem _ hu)
    have step : findPipe (some t :: (pre.map some ++ rest)) i =
        findPipe (pre.map some ++ rest) (i + 1) := by
      simp [findPipe, equal, ht]
    rw [List.map_cons, List.cons_append, step, ih hrest]
    simp [Nat.add_comm, Nat.add_left_comm]

/-- The array after `left[pipe_pos] = NULL`. -/
theorem set_pipe_null (pre post : List String) :
    (cArray (pre ++ "|" :: post)).set pre.length none = pre.map some ++ none :: cArray post := by
  induction pre with
  | nil => simp [cArray]
  | cons t pre ih => simp [cArray]

/-- The array `&tokens[pipe_pos + 1]`. -/
theorem drop_after_pipe (pre post : List String) :
    (cArray (pre ++ "|" :: post)).drop (pre.length + 1) = cArray post := by
  induction pre with
  | nil => simp [cArray]
  | cons t pre ih => simpa [cArray] using ih

/-- Sequencing keeps the first event of a run. -/
theorem andThen_events_head (r : Run) (next : Nat → Run) (e : Event)
    (h : r.events.head? = some e) : (r.andThen next).events.head? = some e := by
  unfold Run.andThen
  split
  · cases hr : r.events with
    | nil => rw [hr] at h; simp at h
    | cons x xs => rw [hr] at h; simpa using h
  · exact h

/-- The first event of `execute_single_command` records the call. -/
theorem execute_single_command_head (sys : Sys) (tokens : TokenArray) (background : Bool)
    (n : Nat) :
    (execute_single_command sys tokens background n).events.head? =
      some (.enter_single (argv tokens) background) := by
  unfold execute_single_command
  split
  · rfl
  · rfl
  · split
    · split <;> rfl
    · rfl

/-- The first event of `execute_pipeline` records the call. -/
theorem execute_pipeline_head (sys : Sys) (left right : TokenArray) (background : Bool)
    (n : Nat) :
    (execute_pipeline sys left right background n).events.head? =
      some (.enter_pipeline (argv left) (argv right) background) := by
  unfold execute_pipeline
  simp only
  split
  · rfl
  · split
    · apply andThen_events_head
      apply andThen_events_head
      rfl
    · split
      · apply andThen_events_head
        apply andThen_events_head
        rfl
      · rfl

/-- The call made by the dispatch of a segment split at its first `|`, and of a
segment without `|`. -/
theorem dispatchSegment_routes (sys : Sys) (pre post : List String)
    (background : Bool) (n : Nat) (hpre : ∀ t ∈ pre, t ≠ "|") :
    (dispatchSegment sys (cArray (pre ++ "|" :: post)) background n =
        (execute_pipeline sys (pre.map some ++ none :: cArray post) (cArray post)
          background n).andThen freeTokens ∧
      argv (pre.map some ++ none :: cArray post) = pre ∧ argv (cArray post) = post ∧
      (dispatchSegment sys (cArray (pre ++ "|" :: post)) background n).events.head? =
        some (.enter_pipeline pre post background)) ∧
    (dispatchSegment sys (cArray pre) background n =
        (execute_single_command sys (cArray pre) background n).andThen freeTokens ∧
      (dispatchSegment sys (cArray pre) background n).events.head? =
        some (.enter_single pre background)) := by
  have hfind1 : findPipe (cArray (pre ++ "|" :: post)) 0 = .ok (some pre.length) := by
    have e : cArray (pre ++ "|" :: post) = pre.map some ++ (some "|" :: cArray post) := by
      simp [cArray]
    rw [e, findPipe_skip pre hpre]
    simp [findPipe, equal]
  have hfind2 : findPipe (cArray pre) 0 = .ok none := by
    have e : cArray pre = pre.map some ++ [none] := rfl
    rw [e, findPipe_skip pre hpre]
    simp [findPipe]
  have h1 : dispatchSegment sys (cArray (pre ++ "|" :: post)) background n =
      (execute_pipeline sys (pre.map some ++ none :: cArray post) (cArray post)
        background n).andThen freeTokens := by
    simp only [dispatchSegment, hfind1, set_pipe_null, drop_after_pipe]
  have h2 : dispatchSegment sys (cArray pre) background n =
      (execute_single_command sys (cArray pre) background n).andThen freeTokens := by
    simp only [dispatchSegment, hfind2]
  refine ⟨⟨h1, argv_left pre _, argv_cArray post, ?_⟩, h2, ?_⟩
  · rw [h1]
    apply andThen_events_head
    rw [execute_pipeline_head, argv_left, argv_cArray]
  · rw [h2]
    apply andThen_events_head
    rw [execute_single_command_head, argv_cArray]

/-- C6: for a segment `pre | post` whose tokens `pre` hold no `|`, the dispatch loop
calls `execute_pipeline` with left the tokens `pre` and right the tokens `post` as
they are, later `|` included; for a segment `pre` without `|` it calls
`execute_single_command` on the whole segment. -/
theorem dispatch_routes_on_first_pipe (sys : Sys) (pre post : List String)
    (background : Bool) (n : Nat) (hpre : ∀ t ∈ pre, t ≠ "|") :
    (dispatchSegment sys (cArray (pre ++ "|" :: post)) background n =
        (execute_pipeline sys (pre.map some ++ none :: cArray post) (cArray post)
          background n).andThen freeTokens ∧
      argv (pre.map some ++ none :: cArray post) = pre ∧ argv (cArray post) = post ∧
      (dispatchSegment sys (cArray (pre ++ "|" :: post)) background n).events.head? =
        some (.enter_pipeline pre post background)) ∧
    (dispatchSegment sys (cArray pre) background n =
        (execute_single_command sys (cArray pre) background n).andThen freeTokens ∧
      (dispatchSegment sys (cArray pre) background n).events.head? =
        some (.enter_single pre background)) :=
  dispatchSegment_routes sys pre post background n hpre

/-- C6 at the segments `ls | wc | cat` and `ls`. -/
theorem dispatch_routes_on_first_pipe_witness :
    (∀ t ∈ ["ls"], t ≠ "|") ∧
    (dispatchSegment parentSys (cArray (["ls"] ++ "|" :: ["wc", "|", "cat"])) false 0).events.head? =
        some (.enter_pipeline ["ls"] ["wc", "|", "cat"] false) ∧
    (dispatchSegment parentSys (cArray ["ls"]) false 0).events.head? =
        some (.enter_single ["ls"] false) :=
  ⟨by decide,
   (dispatch_routes_on_first_pipe parentSys ["ls"] ["wc", "|", "cat"] false 0 (by decide)).1.2.2.2,
   (dispatch_routes_on_first_pipe parentSys ["ls"] ["wc", "|", "cat"] false 0 (by decide)).2.2⟩

/-- The waits of two runs in sequence. -/
theorem waitedPids_append (a b : List Event) :
    waitedPids (a ++ b) = waitedPids a ++ waitedPids b := by
  induction a with
  | nil => rfl
  | cons e a ih => cases e <;> simp [waitedPids, ih]

/-- The children created by two runs in sequence. -/
theorem createdPids_append (a b : List Event) :
    createdPids (a ++ b) = createdPids a ++ createdPids b := by
  induction a with
  | nil => rfl
  | cons e a ih =>
    cases e <;> simp [createdPids, ih]
    split <;> simp

/-- A token sequence that holds `|` splits at its first `|`. -/
theorem split_at_first_pipe (ts : List String) (h : "|" ∈ ts) :
    ∃ pre post, ts = pre ++ "|" :: post ∧ ∀ t ∈ pre, t ≠ "|" := by
  induction ts with
  | nil => simp at h
  | cons t ts ih =>
    by_cases ht : t = "|"
    · exact ⟨[], ts, by simp [ht], by simp⟩
    · have hmem : "|" ∈ ts := by
        rcases List.mem_cons.1 h with h | h
        · exact absurd h.symm ht
        · exact h
      obtain ⟨pre, post, hts, hpre⟩ := ih hmem
      refine ⟨t :: pre, post, by simp [hts], ?_⟩
      intro u hu
      rcases List.mem_cons.1 hu with rfl | hu
      · exact ht
      · exact hpre u hu

/-- The run of `execute_single_command` on a NULL-terminated array in the
process that calls it, when `fork` succeeds. -/
theorem execute_single_command_parent (sys : Sys) (ts : List String) (tail : TokenArray)
    (background : Bool) (n : Nat) (hpid : 0 < sys.fork n) :
    execute_single_command sys (ts.map some ++ none :: tail) background n =
      if ts = [] then
        { events := [.enter_single ts background], calls := n, outcome := .returned }
      else if ts = ["ascii"] then
        { events := [.enter_single ts background, .ascii_art], calls := n,
          outcome := .returned }
      else
        { events := .enter_single ts background :: .fork (sys.fork n) ::
            (if background then [] else [.waitpid (sys.fork n)]),
          calls := n + 1, outcome := .returned } := by
  by_cases h1 : ts = []
  · subst h1; simp [execute_single_command, argv]
  · by_cases h2 : ts = ["ascii"]
    · subst h2; simp [execute_single_command, argv, equal]
    · obtain ⟨r, hr⟩ := redirectionScan_ok ts tail [] 0
      rw [if_neg h1, if_neg h2, execute_single_command_launch sys ts tail background n h1 h2,
        forkAndLaunch_parent sys _ background n r hr hpid]

/-- The shell's own run of `execute_pipeline` when both `fork` calls succeed. -/
theorem execute_pipeline_parent (sys : Sys) (left right : TokenArray) (background : Bool)
    (n : Nat) (hl : 0 < sys.fork (n + 1)) (hr : 0 < sys.fork (n + 2)) :
    execute_pipeline sys left right background n =
      if sys.pipe n = -1 then
        { events := [.enter_pipeline (argv left) (argv right) background, .pipe (sys.pipe n),
                     .perror "pipe"],
          calls := n + 1, outcome := .returned }
      else
        { events := [.enter_pipeline (argv left) (argv right) background, .pipe (sys.pipe n),
                     .fork (sys.fork (n + 1)), .fork (sys.fork (n + 2)),
                     .close .pipe_rd, .close .pipe_wr] ++
                    (if background then [] else
                      [.waitpid (sys.fork (n + 1)), .waitpid (sys.fork (n + 2))]),
          calls := n + 3, outcome := .returned } := by
  have h1 : sys.fork (n + 1) ≠ 0 := by omega
  have h2 : sys.fork (n + 2) ≠ 0 := by omega
  simp only [execute_pipeline, h1, h2, if_false]

/-- C7: when every `fork` succeeds, the dispatch of a segment returns to the shell
loop, having waited on exactly the children it created when the segment is
foreground and on none when it is background; these children are the two of
`execute_pipeline` (none if `pipe` failed) or the one of `execute_single_command`
(none for an empty segment or the built-in `ascii`). -/
theorem shell_waits_for_its_children (sys : Sys) (ts : List String) (background : Bool)
    (n : Nat) (hfork : ∀ k, 0 < sys.fork k) :
    (dispatchSegment sys (cArray ts) background n).outcome = .returned ∧
    waitedPids (dispatchSegment sys (cArray ts) background n).events =
      (if background then []
       else createdPids (dispatchSegment sys (cArray ts) background n).events) ∧
    createdPids (dispatchSegment sys (cArray ts) background n).events =
      (if "|" ∈ ts then
        (if sys.pipe n = -1 then [] else [sys.fork (n + 1), sys.fork (n + 2)])
       else if ts = [] ∨ ts = ["ascii"] then []
       else [sys.fork n]) := by
  by_cases hp : "|" ∈ ts
  · obtain ⟨pre, post, rfl, hpre⟩ := split_at_first_pipe ts hp
    rw [(dispatchSegment_routes sys pre post background n hpre).1.1,
      execute_pipeline_parent sys _ _ background n (hfork _) (hfork _), if_pos hp]
    by_cases hpipe : sys.pipe n = -1
    · simp [hpipe, Run.andThen, freeTokens, waitedPids, createdPids]
    · cases background <;>
        simp [hpipe, Run.andThen, freeTokens, waitedPids, createdPids, hfork]
  · have hno : ∀ t ∈ ts, t ≠ "|" := fun t ht h => hp (h ▸ ht)
    have hrun := execute_single_command_parent sys ts [] background n (hfork n)
    have hblock : ts.map some ++ none :: [] = cArray ts := rfl
    rw [hblock] at hrun
    rw [(dispatchSegment_routes sys ts [] background n hno).2.1, hrun, if_neg hp]
    by_cases h1 : ts = []
    · simp [h1, Run.andThen, freeTokens, waitedPids, createdPids]
    · by_cases h2 : ts = ["ascii"]
      · simp [h2, Run.andThen, freeTokens, waitedPids, createdPids]
      · cases background <;>
          simp [h1, h2, Run.andThen, freeTokens, waitedPids, createdPids, hfork]

/-- C7 at the foreground segment `ls | wc`. -/
theorem shell_waits_for_its_children_witness :
    (∀ k, 0 < shellSys.fork k) ∧
    (dispatchSegment shellSys (cArray ["ls", "|", "wc"]) false 0).outcome = .returned ∧
    waitedPids (dispatchSegment shellSys (cArray ["ls", "|", "wc"]) false 0).events =
      (if false then []
       else createdPids (dispatchSegment shellSys (cArray ["ls", "|", "wc"]) false 0).events) ∧
    createdPids (dispatchSegment shellSys (cArray ["ls", "|", "wc"]) false 0).events =
      (if "|" ∈ ["ls", "|", "wc"] then
        (if shellSys.pipe 0 = -1 then [] else [shellSys.fork (0 + 1), shellSys.fork (0 + 2)])
       else if ["ls", "|", "wc"] = [] ∨ ["ls", "|", "wc"] = ["ascii"] then []
       else [shellSys.fork 0]) :=
  ⟨fun k => by show (0 : Int) < 100 + k; omega,
   shell_waits_for_its_children shellSys ["ls", "|", "wc"] false 0
     (fun k => by show (0 : Int) < 100 + k; omega)⟩

/-- C8 (counterexample): in the left child of the background pipeline `ls | wc`
the nested `execute_single_command` is entered with `background = false`, creates
process `55` and waits for it. -/
theorem nested_launch_counterexample :
    execute_pipeline leftChildSys [some "ls", none, some "wc", none] [some "wc", none] true 0 =
      { events := [.enter_pipeline ["ls"] ["wc"] true, .pipe 0, .fork 0,
                   .close .pipe_rd, .dup2 .pipe_wr .stdout, .close .pipe_wr,
                   .enter_single ["ls"] false, .fork 55, .waitpid 55,
                   .exit EXIT_SUCCESS],
        calls := 3, outcome := .exited EXIT_SUCCESS } := by
  decide

/-- C8 (amended): for every pipeline and every value of its background flag, each
side's child calls `execute_single_command` with `background = false`, that is in
wait mode: when the nested launch creates the program's process (a side that is
not empty and not the lone word `ascii`, `fork` succeeding), the child waits for
that process and then exits with `EXIT_SUCCESS`. -/
theorem pipeline_children_wait (sys : Sys) (l r : List String) (tailL tailR : TokenArray)
    (background : Bool) (n : Nat) (hpipe : sys.pipe n ≠ -1) :
    (sys.fork (n + 1) = 0 → 0 < sys.fork (n + 2) → l ≠ [] → l ≠ ["ascii"] →
      execute_pipeline sys (l.map some ++ none :: tailL) (r.map some ++ none :: tailR)
          background n =
        { events := [.enter_pipeline l r background, .pipe (sys.pipe n), .fork 0,
                     .close .pipe_rd, .dup2 .pipe_wr .stdout, .close .pipe_wr,
                     .enter_single l false, .fork (sys.fork (n + 2)),
                     .waitpid (sys.fork (n + 2)), .exit EXIT_SUCCESS],
          calls := n + 3, outcome := .exited EXIT_SUCCESS }) ∧
    (sys.fork (n + 1) ≠ 0 → sys.fork (n + 2) = 0 → 0 < sys.fork (n + 3) → r ≠ [] →
        r ≠ ["ascii"] →
      execute_pipeline sys (l.map some ++ none :: tailL) (r.map some ++ none :: tailR)
          background n =
        { events := [.enter_pipeline l r background, .pipe (sys.pipe n),
                     .fork (sys.fork (n + 1)), .fork 0,
                     .close .pipe_wr, .dup2 .pipe_rd .stdin, .close .pipe_rd,
                     .enter_single r false, .fork (sys.fork (n + 3)),
                     .waitpid (sys.fork (n + 3)), .exit EXIT_SUCCESS],
          calls := n + 4, outcome := .exited EXIT_SUCCESS }) := by
  refine ⟨fun h1 h2 hl1 hl2 => ?_, fun h1 h2 h3 hr1 hr2 => ?_⟩
  · have hrun := execute_single_command_parent sys l tailL false (n + 2) h2
    rw [if_neg hl1, if_neg hl2] at hrun
    simp [execute_pipeline, hpipe, h1, Run.andThen, hrun, exitSuccess, argv_left]
  · have hrun := execute_single_command_parent sys r tailR false (n + 3) h3
    rw [if_neg hr1, if_neg hr2] at hrun
    simp [execute_pipeline, hpipe, h1, h2, Run.andThen, hrun, exitSuccess, argv_left]

/-- The amended C8 at the left child of the background pipeline `ls | wc`. -/
theorem pipeline_children_wait_witness :
    leftChildSys.pipe 0 ≠ -1 ∧ leftChildSys.fork (0 + 1) = 0 ∧ 0 < leftChildSys.fork (0 + 2) ∧
    ["ls"] ≠ [] ∧ ["ls"] ≠ ["ascii"] ∧
    execute_pipeline leftChildSys (["ls"].map some ++ none :: cArray ["wc"])
        (["wc"].map some ++ none :: []) true 0 =
      { events := [.enter_pipeline ["ls"] ["wc"] true, .pipe (leftChildSys.pipe 0), .fork 0,
                   .close .pipe_rd, .dup2 .pipe_wr .stdout, .close .pipe_wr,
                   .enter_single ["ls"] false, .fork (leftChildSys.fork (0 + 2)),
                   .waitpid (leftChildSys.fork (0 + 2)), .exit EXIT_SUCCESS],
        calls := 0 + 3, outcome := .exited EXIT_SUCCESS } :=
  ⟨by decide, by decide, by decide, by decide, by decide,
   (pipeline_children_wait leftChildSys ["ls"] ["wc"] (cArray ["wc"]) [] true 0 (by decide)).1
     (by decide) (by decide) (by decide) (by decide)⟩

/-- C10 (failing input): on the segment `< in.txt` the redirection scan empties the
argument vector, and still the shell calls `fork` and the child calls
`execvp(NULL, ...)`. -/
theorem empty_argv_failing_input :
    redirectionScan [] (cArray ["<", "in.txt"]) 0 =
      .ok { input_file := some "in.txt", output_file := none,
            tokens := [none, some "in.txt", none] } ∧
    argv [none, some "in.txt", none] = [] ∧
    execute_single_command parentSys (cArray ["<", "in.txt"]) false 0 =
      { events := [.enter_single ["<", "in.txt"] false, .fork 7, .waitpid 7],
        calls := 1, outcome := .returned } ∧
    execute_single_command childSys (cArray ["<", "in.txt"]) false 0 =
      { events := [.enter_single ["<", "in.txt"] false, .fork 0,
                   .open_file "in.txt" false true, .dup2 (.file "in.txt") .stdin,
                   .close (.file "in.txt"), .execvp none []],
        calls := 1, outcome := .fault .null_program } := by
  refine ⟨by rfl, by decide, by decide, by decide⟩

/-- The calls made by two runs in sequence. -/
theorem callsMade_append (a b : List Event) :
    callsMade (a ++ b) = callsMade a ++ callsMade b := by
  induction a with
  | nil => rfl
  | cons e a ih => cases e <;> simp [callsMade, ih]

/-- Every stored segment is a NULL-terminated array of its tokens. -/
theorem segmentLoop_arrays (fuel : Nat) : ∀ (ts : List String) (n : Nat) (segs : List Segment),
    segmentLoop fuel ts n = .ok segs → ∀ s ∈ segs, s.tokens = cArray (argv s.tokens) := by
  induction fuel with
  | zero =>
    intro ts n segs h
    cases ts with
    | nil => simp [segmentLoop] at h; subst h; simp
    | cons t ts => simp [segmentLoop] at h
  | succ fuel ih =>
    intro ts n segs h
    cases ts with
    | nil => simp [segmentLoop] at h; subst h; simp
    | cons t ts =>
      rw [segmentLoop_succ] at h
      split at h
      · split at h
        · rename_i hn segs2 hrec
          injection h with h
          subst h
          intro s hs
          rcases List.mem_cons.1 hs with rfl | hs
          · simp [argv_cArray]
          · exact ih _ _ _ hrec s hs
        · simp at h
      · simp at h

/-- In the shell process (no `fork` returns `0`) the dispatch of a segment makes one
call, the expected one, and returns. -/
theorem dispatchSegment_shell (sys : Sys) (hshell : ∀ k, sys.fork k ≠ 0) (ts : List String)
    (background : Bool) (n : Nat) :
    (dispatchSegment sys (cArray ts) background n).outcome = .returned ∧
    callsMade (dispatchSegment sys (cArray ts) background n).events =
      [expectedCall { tokens := cArray ts, background := background }] := by
  by_cases hp : "|" ∈ ts
  · obtain ⟨pre, post, rfl, hpre⟩ := split_at_first_pipe ts hp
    have hpre2 : ∀ t ∈ pre, decide (t ≠ "|") = true := fun t ht => by simpa using hpre t ht
    have htake : (pre ++ "|" :: post).takeWhile (fun t => decide (t ≠ "|")) = pre := by
      rw [List.takeWhile_append_of_pos hpre2]; simp
    have hdrop : (pre ++ "|" :: post).dropWhile (fun t => decide (t ≠ "|")) = "|" :: post := by
      rw [List.dropWhile_append_of_pos hpre2]; simp
    rw [(dispatchSegment_routes sys pre post background n hpre).1.1]
    simp only [expectedCall, argv_cArray, if_pos hp, htake, hdrop]
    by_cases hpipe : sys.pipe n = -1
    · simp [execute_pipeline, hpipe, Run.andThen, freeTokens, callsMade, argv_left, argv_cArray]
    · cases background <;>
        simp [execute_pipeline, hpipe, hshell, Run.andThen, freeTokens, callsMade, argv_left,
          argv_cArray]
  · have hno : ∀ t ∈ ts, t ≠ "|" := fun t ht h => hp (h ▸ ht)
    rw [(dispatchSegment_routes sys ts [] background n hno).2.1]
    simp only [expectedCall, argv_cArray, if_neg hp]
    by_cases h1 : ts = []
    · subst h1
      simp [execute_single_command, cArray, argv, Run.andThen, freeTokens, callsMade]
    · by_cases h2 : ts = ["ascii"]
      · subst h2
        simp [execute_single_command, cArray, argv, equal, Run.andThen, freeTokens, callsMade]
      · obtain ⟨r, hr⟩ := redirectionScan_ok ts [] [] 0
        have hlaunch := execute_single_command_launch sys ts [] background n h1 h2
        have hblock : ts.map some ++ none :: [] = cArray ts := rfl
        rw [hblock] at hlaunch hr
        rw [hlaunch]
        have h0 := hshell n
        by_cases hpos : 0 < sys.fork n ∧ background = false
        · simp [forkAndLaunch, hr, h0, hpos, Run.andThen, freeTokens, callsMade]
        · by_cases hneg : sys.fork n < 0
          · simp [forkAndLaunch, hr, h0, hpos, hneg, Run.andThen, freeTokens, callsMade]
          · simp [forkAndLaunch, hr, h0, hpos, hneg, Run.andThen, freeTokens, callsMade]

/-- In the shell process the dispatch loop makes the expected call for each stored
segment, in the order of the array, and returns. -/
theorem dispatchLoop_shell (sys : Sys) (hshell : ∀ k, sys.fork k ≠ 0) :
    ∀ (segs : List Segment) (n : Nat), (∀ s ∈ segs, s.tokens = cArray (argv s.tokens)) →
      (dispatchLoop sys segs n).outcome = .returned ∧
      callsMade (dispatchLoop sys segs n).events = segs.map expectedCall := by
  intro segs
  induction segs with
  | nil => intro n _; simp [dispatchLoop, callsMade]
  | cons s segs ih =>
    intro n hwf
    have hs := hwf s (List.mem_cons_self _ _)
    obtain ⟨h1, h2⟩ := dispatchSegment_shell sys hshell (argv s.tokens) s.background n
    rw [← hs] at h1 h2
    obtain ⟨h3, h4⟩ := ih (dispatchSegment sys s.tokens s.background n).calls
      (fun x hx => hwf x (List.mem_cons_of_mem _ hx))
    simp only [dispatchLoop, Run.andThen, h1]
    refine ⟨h3, ?_⟩
    rw [callsMade_append, h2, h4]
    rfl

/-- Whenever the segmenter stores its segments, the shell process dispatches
exactly these, one call per segment, in order, each with the segment's background
flag, and whatever the outcome of the earlier ones. -/
theorem processLine_dispatches_in_order (sys : Sys) (hshell : ∀ k, sys.fork k ≠ 0)
    (line : String) (segs : List Segment) (n : Nat) (hsegs : segmentLine line = .ok segs) :
    (processLine sys line n).outcome = .returned ∧
    callsMade (processLine sys line n).events = segs.map expectedCall := by
  have hwf := segmentLoop_arrays _ _ _ _ hsegs
  simp only [processLine, hsegs]
  exact dispatchLoop_shell sys hshell segs n hwf

/-- C9: in the shell process (no `fork` returns `0`), the dispatch loop makes one
call for each segment of the array, in the order of the array, with that segment's
background flag, whatever the number of segments and whatever the earlier calls
did; for every line whose segments the segmenter produced, `processLine` returns
after making exactly these calls for these segments; and the segmenter produces
the segments of every line but those on which it runs past the `segments` array. -/
theorem dispatch_in_segment_order (sys : Sys) (hshell : ∀ k, sys.fork k ≠ 0) :
    (∀ (segs : List Segment) (n : Nat), (∀ s ∈ segs, s.tokens = cArray (argv s.tokens)) →
      (dispatchLoop sys segs n).outcome = .returned ∧
      callsMade (dispatchLoop sys segs n).events = segs.map expectedCall) ∧
    (∀ (line : String) (segs : List Segment) (n : Nat), segmentLine line = .ok segs →
      (processLine sys line n).outcome = .returned ∧
      callsMade (processLine sys line n).events = segs.map expectedCall) ∧
    (∀ (line : String) (f : Fault), segmentLine line = .error f →
      f = .segments_overflow MAX_SEGMENTS) :=
  ⟨fun segs n hwf => dispatchLoop_shell sys hshell segs n hwf,
   fun line segs n hsegs => by
    have hwf := segmentLoop_arrays _ _ _ _ hsegs
    simp only [processLine, hsegs]
    exact dispatchLoop_shell sys hshell segs n hwf,
   fun line f h => segmentLoop_error _ _ 0 f (Nat.le_refl _) (Nat.zero_le _) h⟩

/-- C9 at the line `false ; echo done`, whose second command is dispatched after
the first, and at an array of eleven segments. -/
theorem dispatch_in_segment_order_witness :
    (∀ k, shellSys.fork k ≠ 0) ∧
    segmentLine "false ; echo done" =
      .ok [{ tokens := cArray ["false"], background := false },
           { tokens := cArray ["echo", "done"], background := false }] ∧
    (processLine shellSys "false ; echo done" 0).outcome = .returned ∧
    callsMade (processLine shellSys "false ; echo done" 0).events =
      [.enter_single ["false"] false, .enter_single ["echo", "done"] false] ∧
    (dispatchLoop shellSys elevenSegments 0).outcome = .returned ∧
    callsMade (dispatchLoop shellSys elevenSegments 0).events =
      List.replicate 11 (.enter_single ["a"] false) := by
  have hshell : ∀ k, shellSys.fork k ≠ 0 := fun k => by
    show (100 : Int) + k ≠ 0
    omega
  have hline := (dispatch_in_segment_order shellSys hshell).2.1 "false ; echo done"
    [{ tokens := cArray ["false"], background := false },
     { tokens := cArray ["echo", "done"], background := false }] 0 (by rfl)
  have hloop := (dispatch_in_segment_order shellSys hshell).1 elevenSegments 0 (by decide)
  exact ⟨hshell, by rfl, hline.1, hline.2.trans (by decide), hloop.1,
    hloop.2.trans (by decide)⟩

/-! ## Empty segments, capacities and the argument vector -/

/-- A round of the segmenting loop that ends at a separator and is followed by
successful rounds stores its segment first. -/
theorem segmentLoop_step_ok (fuel : Nat) (seg : List String) (sep : String)
    (rest : List String) (n : Nat) (segs : List Segment)
    (hseg : ∀ t ∈ seg, inSegment t = true) (hsep : inSegment sep = false)
    (h : segmentLoop (fuel + 1) (seg ++ sep :: rest) n = .ok segs) :
    ∃ segs2, segmentLoop fuel rest (n + 1) = .ok segs2 ∧
      segs = { tokens := cArray seg, background := equal sep "&" } :: segs2 := by
  rw [segmentLoop_step fuel seg sep rest n hseg hsep] at h
  split at h
  · split at h
    · rename_i segs2 hrec
      injection h with h
      exact ⟨segs2, hrec, h.symm⟩
    · simp at h
  · simp at h

/-- A separator at the head of the tokens left closes a zero-token segment. -/
theorem segmentLoop_head_separator (fuel : Nat) (d : String) (post : List String) (n : Nat)
    (segs : List Segment) (hd : inSegment d = false)
    (h : segmentLoop fuel (d :: post) n = .ok segs) :
    segs[0]? = some { tokens := cArray [], background := equal d "&" } := by
  cases fuel with
  | zero => simp [segmentLoop] at h
  | succ fuel =>
    obtain ⟨segs2, _, hsegs⟩ := segmentLoop_step_ok fuel [] d post n segs (by simp) hd h
    rw [hsegs]; simp

/-- A separator that follows a separator closes a zero-token segment; its place
among the segments is the number of separators before it. -/
theorem segmentLoop_after_separator (fuel : Nat) :
    ∀ (pre : List String) (s d : String) (post : List String) (n : Nat) (segs : List Segment),
      inSegment s = false → inSegment d = false →
      segmentLoop fuel (pre ++ s :: d :: post) n = .ok segs →
      segs[pre.countP (fun t => !inSegment t) + 1]? =
        some { tokens := cArray [], background := equal d "&" } := by
  induction fuel with
  | zero =>
    intro pre s d post n segs _ _ h
    cases pre <;> simp [segmentLoop] at h
  | succ fuel ih =>
    intro pre s d post n segs hs hd h
    obtain ⟨hseg, hsplit⟩ := split_at_separator pre
    have hzero : (pre.takeWhile inSegment).countP (fun t => !inSegment t) = 0 := by
      rw [List.countP_eq_zero]
      intro t ht
      simp [hseg t ht]
    rcases hsplit with ⟨_, hpre⟩ | ⟨sep, rest, _, hsep, hpre⟩
    · rw [hpre] at h
      obtain ⟨segs2, hrec, hsegs⟩ :=
        segmentLoop_step_ok fuel _ s (d :: post) n segs hseg hs h
      have h0 := segmentLoop_head_separator fuel d post (n + 1) segs2 hd hrec
      have hc : pre.countP (fun t => !inSegment t) = 0 := by rw [hpre]; exact hzero
      rw [hc, hsegs]
      simpa using h0
    · have e : pre ++ s :: d :: post =
          pre.takeWhile inSegment ++ sep :: (rest ++ s :: d :: post) := by
        conv_lhs => rw [hpre]
        simp
      rw [e] at h
      obtain ⟨segs2, hrec, hsegs⟩ :=
        segmentLoop_step_ok fuel _ sep (rest ++ s :: d :: post) n segs hseg hsep h
      have hi := ih rest s d post (n + 1) segs2 hs hd hrec
      have hc : pre.countP (fun t => !inSegment t) =
          rest.countP (fun t => !inSegment t) + 1 := by
        conv_lhs => rw [hpre]
        rw [List.countP_append, List.countP_cons, hzero]
        simp [hsep]
      rw [hc, hsegs]
      simpa using hi

/-- The dispatch of a zero-token segment: `execute_single_command` returns at its
first line, and the array is freed. -/
theorem dispatchSegment_empty (sys : Sys) (background : Bool) (n : Nat) :
    dispatchSegment sys (cArray []) background n =
      { events := [.enter_single [] background, .free], calls := n, outcome := .returned } := by
  simp [dispatchSegment, cArray, findPipe, execute_single_command, argv, Run.andThen,
    freeTokens]

/-- C11 (counterexample): in a line of thirty-eight words followed by `; ;` the
second `;` follows a `;`, yet it is the fortieth token and is not kept: the line
yields its one segment of words and no zero-token segment. -/
theorem empty_segment_counterexample :
    words twoSemicolonsLine = List.replicate 38 "a" ++ [";", ";"] ∧
    segmentLine twoSemicolonsLine =
      .ok [{ tokens := cArray (List.replicate 38 "a"), background := false }] := by
  refine ⟨by decide, by rfl⟩

/-- C11 (amended): for every input line whose segments the segmenter stores, each
`;` or `&` among the first `MAX_TOKENS - 1 = 39` tokens that is the first token or
comes right after another `;` or `&` yields a zero-token segment with that
delimiter's background flag, at the place given by the number of delimiters before
it; and the dispatch of a zero-token segment creates no process, prints nothing and
reports no error. -/
theorem empty_segment_emitted (line : String) (pre post : List String) (d : String)
    (segs : List Segment) (hd : d = ";" ∨ d = "&")
    (hkept : (words line).take (MAX_TOKENS - 1) = pre ++ d :: post)
    (hpre : pre = [] ∨ ∃ pre0 s, pre = pre0 ++ [s] ∧ (s = ";" ∨ s = "&"))
    (hsegs : segmentLine line = .ok segs) :
    segs[pre.countP (fun t => decide (t = ";" ∨ t = "&"))]? =
      some { tokens := cArray [], background := decide (d = "&") } ∧
    argv (cArray []) = [] ∧
    ∀ (sys : Sys) (background : Bool) (n : Nat),
      dispatchSegment sys (cArray []) background n =
        { events := [.enter_single [] background, .free], calls := n,
          outcome := .returned } := by
  have hsepd : inSegment d = false := by
    rcases hd with rfl | rfl <;> decide
  have e : (fun t : String => decide (t = ";" ∨ t = "&")) = (fun t => !inSegment t) := by
    funext t
    by_cases h1 : t = ";" <;> by_cases h2 : t = "&" <;> simp [inSegment, equal, h1, h2]
  unfold segmentLine at hsegs
  rw [tokenize_eq_take, hkept] at hsegs
  refine ⟨?_, rfl, fun sys background n => dispatchSegment_empty sys background n⟩
  rw [e]
  rcases hpre with rfl | ⟨pre0, s, rfl, hs⟩
  · simpa [equal] using segmentLoop_head_separator _ d post 0 segs hsepd hsegs
  · have hseps : inSegment s = false := by
      rcases hs with rfl | rfl <;> decide
    have e2 : pre0 ++ [s] ++ d :: post = pre0 ++ s :: d :: post := by simp
    rw [e2] at hsegs
    have := segmentLoop_after_separator _ pre0 s d post 0 segs hseps hsepd hsegs
    rw [List.countP_append]
    simpa [equal, hseps] using this

/-- The amended C11 at the line `ls ; & pwd`, for its `&`. -/
theorem empty_segment_emitted_witness :
    [({ tokens := cArray ["ls"], background := false } : Segment),
      { tokens := cArray [], background := true },
      { tokens := cArray ["pwd"], background := false }][
        ["ls", ";"].countP (fun t => decide (t = ";" ∨ t = "&"))]? =
      some { tokens := cArray [], background := decide ("&" = "&") } ∧
    argv (cArray []) = [] ∧
    ∀ (sys : Sys) (background : Bool) (n : Nat),
      dispatchSegment sys (cArray []) background n =
        { events := [.enter_single [] background, .free], calls := n,
          outcome := .returned } :=
  empty_segment_emitted "ls ; & pwd" ["ls", ";"] ["pwd"] "&" _ (Or.inr rfl) (by decide)
    (Or.inr ⟨["ls"], ";", rfl, Or.inl rfl⟩) (by rfl)

/-- The tokenizing loop stores at most `MAX_TOKENS - 1` tokens. -/
theorem tokenize_length_le (line : String) : (tokenize line).length ≤ MAX_TOKENS - 1 := by
  rw [tokenize_eq_take]
  exact List.length_take_le _ _

/-- C12 (failing input): the tokens kept of any line number at most
`MAX_TOKENS - 1`, but a line of eleven `;` has eleven segments, and the store of
the eleventh is `segments[MAX_SEGMENTS]`, past the end of the array. -/
theorem capacity_failing_input :
    (∀ line, (tokenize line).length ≤ MAX_TOKENS - 1) ∧
    tokenize elevenSemicolons = List.replicate 11 ";" ∧
    segmentLine elevenSemicolons = .error (.segments_overflow MAX_SEGMENTS) := by
  refine ⟨tokenize_length_le, by decide, by rfl⟩


/-- C13 (counterexample): for the segment `sort < in.txt -r` the child calls
`execvp` with the argument vector `sort` alone: the token `-r` after the path is not
passed. -/
theorem argument_vector_counterexample :
    execute_single_command childSys (cArray ["sort", "<", "in.txt", "-r"]) false 0 =
      { events := [.enter_single ["sort", "<", "in.txt", "-r"] false, .fork 0,
                   .open_file "in.txt" false true, .dup2 (.file "in.txt") .stdin,
                   .close (.file "in.txt"), .execvp (some "sort") ["sort"]],
        calls := 1, outcome := .replaced } := by
  decide

/-- C13 (amended): for every segment with at least one token before its first
redirection operator and a path token after it, the argument vector handed to
`execvp` in the child (once the path is opened) is the tokens before the operator,
as they are and in order; the operator, the path and every token after the path are
not passed. -/
theorem argument_vector_cut_at_operator (sys : Sys) (prog : String)
    (args : List String) (op path : String) (post : List String) (background : Bool)
    (n : Nat) (hpre : ∀ t ∈ prog :: args, t ≠ "<" ∧ t ≠ ">") (hop : op = "<" ∨ op = ">")
    (hchild : sys.fork n = 0) (hopen : sys.open_ok path (decide (op = ">")) = true) :
    execute_single_command sys (cArray (prog :: args ++ op :: path :: post)) background n =
      { events := .enter_single (prog :: args ++ op :: path :: post) background :: .fork 0 ::
          .open_file path (decide (op = ">")) true ::
          .dup2 (.file path) (if op = ">" then .stdout else .stdin) ::
          .close (.file path) :: .execvp (some prog) (prog :: args) ::
          (if sys.exec_ok prog (prog :: args) then []
           else [.perror "execvp", .exit EXIT_FAILURE]),
        calls := n + 1,
        outcome := if sys.exec_ok prog (prog :: args) then .replaced
                   else .exited EXIT_FAILURE } := by
  have hne : prog :: args ++ op :: path :: post ≠ [] := by simp
  have hascii : prog :: args ++ op :: path :: post ≠ ["ascii"] := by
    cases args <;> simp
  have hlaunch := execute_single_command_launch sys _ [] background n hne hascii
  have hblock : (prog :: args ++ op :: path :: post).map some ++ none :: [] =
      cArray (prog :: args ++ op :: path :: post) := rfl
  rw [hblock] at hlaunch
  have hargv : argv ((prog :: args).map some ++ none :: cArray (path :: post)) =
      prog :: args := argv_left _ _
  have hargv2 : argv (some prog :: (args.map some ++ none :: cArray (path :: post))) =
      prog :: args := by simpa using hargv
  rw [hlaunch]
  rcases hop with rfl | rfl
  · have hscan := (redirectionScan_first_operator (prog :: args) (path :: post) hpre).1
    have hopen2 : sys.open_ok path false = true := by simpa using hopen
    rw [forkAndLaunch_child sys _ background n _ hscan hchild]
    by_cases hx : sys.exec_ok prog (prog :: args) = true
    · simp [childLaunch, hargv2, hx, hopen2]
    · simp [childLaunch, hargv2, hx, hopen2]
  · have hscan := (redirectionScan_first_operator (prog :: args) (path :: post) hpre).2.1
    have hopen2 : sys.open_ok path true = true := by simpa using hopen
    rw [forkAndLaunch_child sys _ background n _ hscan hchild]
    by_cases hx : sys.exec_ok prog (prog :: args) = true
    · simp [childLaunch, hargv2, hx, hopen2]
    · simp [childLaunch, hargv2, hx, hopen2]

/-- The amended C13 at the segment `ls -l > junk.txt extra`, followed in the
child. -/
theorem argument_vector_cut_at_operator_witness :
    execute_single_command childSys
        (cArray ("ls" :: ["-l"] ++ ">" :: "junk.txt" :: ["extra"])) false 0 =
      { events := .enter_single ("ls" :: ["-l"] ++ ">" :: "junk.txt" :: ["extra"]) false ::
          .fork 0 :: .open_file "junk.txt" (decide (">" = ">")) true ::
          .dup2 (.file "junk.txt") (if ">" = ">" then .stdout else .stdin) ::
          .close (.file "junk.txt") :: .execvp (some "ls") ("ls" :: ["-l"]) ::
          (if childSys.exec_ok "ls" ("ls" :: ["-l"]) then []
           else [.perror "execvp", .exit EXIT_FAILURE]),
        calls := 0 + 1,
        outcome := if childSys.exec_ok "ls" ("ls" :: ["-l"]) then .replaced
                   else .exited EXIT_FAILURE } :=
  argument_vector_cut_at_operator childSys "ls" ["-l"] ">" "junk.txt" ["extra"] false 0
    (by decide) (Or.inr rfl) rfl rfl


/-! ## The history slot -/

/-- C14: in a round of the interactive loop on an accepted line `L` (not
end-of-input, not `exit`, not empty), the history slot is left as it was when `L`
is `!!`, empty or held, and holds `L` itself afterwards otherwise, whatever
`processLine` does with the line buffer. -/
theorem history_slot_step (sys : Sys) (n : Int) (L : String) (slot : Option String)
    (calls : Nat) (hn : n ≠ -1) (hexit : L ≠ "exit") (hempty : L ≠ "") :
    (shellRound sys n L slot calls).last_command = (if L = "!!" then slot else some L) := by
  by_cases hrecall : L = "!!"
  · subst hrecall
    cases slot <;> simp [shellRound, hn, equal]
  · simp [shellRound, hn, hexit, hempty, hrecall, equal]

/-- C14 at the line `ls -l` entered while `pwd` is held. -/
theorem history_slot_step_witness :
    (shellRound shellSys 6 "ls -l" (some "pwd") 0).last_command =
      (if "ls -l" = "!!" then some "pwd" else some "ls -l") :=
  history_slot_step shellSys 6 "ls -l" (some "pwd") 0 (by decide) (by decide) (by decide)

/-- C15 (counterexample): with a held line of eighty characters, `!!` passes its
first seventy-nine characters to `processLine`, not the line itself. -/
theorem recall_counterexample :
    eightyChars.length = 80 ∧
    processedLines (shellRound shellSys 3 "!!" (some eightyChars) 0).events =
      [String.mk (eightyChars.toList.take 79)] ∧
    String.mk (eightyChars.toList.take 79) ≠ eightyChars := by
  refine ⟨by decide, by decide, by decide⟩

/-- C15 (amended): for every held history line `H`, entering `!!` passes to
`processLine` the first `MAXLINE - 1 = 79` characters of `H`, which is `H` itself
when `H` has at most 79 characters, and leaves `H` held. -/
theorem recall_dispatches_held_line (sys : Sys) (n : Int) (H : String) (calls : Nat)
    (hn : n ≠ -1) :
    processedLines (shellRound sys n "!!" (some H) calls).events =
      [String.mk (H.toList.take (MAXLINE - 1))] ∧
    (H.length ≤ MAXLINE - 1 →
      processedLines (shellRound sys n "!!" (some H) calls).events = [H]) ∧
    (shellRound sys n "!!" (some H) calls).last_command = some H := by
  have h1 : processedLines (shellRound sys n "!!" (some H) calls).events =
      [String.mk (H.toList.take (MAXLINE - 1))] := by
    simp [shellRound, hn, equal, processedLines, recallCopy]
  refine ⟨h1, ?_, ?_⟩
  · intro hlen
    rw [h1]
    have : H.toList.take (MAXLINE - 1) = H.toList := List.take_of_length_le hlen
    rw [this]
    rfl
  · simp [shellRound, hn, equal]

/-- The amended C15 at the held line `ls -l`. -/
theorem recall_dispatches_held_line_witness :
    processedLines (shellRound shellSys 3 "!!" (some "ls -l") 0).events =
      [String.mk ("ls -l".toList.take (MAXLINE - 1))] ∧
    ("ls -l".length ≤ MAXLINE - 1 →
      processedLines (shellRound shellSys 3 "!!" (some "ls -l") 0).events = ["ls -l"]) ∧
    (shellRound shellSys 3 "!!" (some "ls -l") 0).last_command = some "ls -l" :=
  recall_dispatches_held_line shellSys 3 "ls -l" 0 (by decide)

/-- C16: with an empty history slot, a round on `!!` prints the prompt and the
no-history message, does not call `processLine`, leaves the slot empty, and the
loop goes on. -/
theorem recall_on_empty_history (sys : Sys) (n : Int) (calls : Nat) (hn : n ≠ -1) :
    shellRound sys n "!!" none calls =
      { events := [.prompt, .no_history], last_command := none, calls := calls,
        should_run := true, outcome := .returned } ∧
    processedLines (shellRound sys n "!!" none calls).events = [] := by
  have h : shellRound sys n "!!" none calls =
      { events := [.prompt, .no_history], last_command := none, calls := calls,
        should_run := true, outcome := .returned } := by
    simp [shellRound, hn, equal]
  rw [h]
  exact ⟨rfl, rfl⟩

/-- C16 at the first round of a session. -/
theorem recall_on_empty_history_witness :
    shellRound shellSys 3 "!!" none 0 =
      { events := [.prompt, .no_history], last_command := none, calls := 0,
        should_run := true, outcome := .returned } ∧
    processedLines (shellRound shellSys 3 "!!" none 0).events = [] :=
  recall_on_empty_history shellSys 3 0 (by decide)

/-! ## The interactive loop -/


/-- One read of `getline`: the bytes of a line and its `'\n'`. -/
theorem getlineAll_line (l : List Char) (hl : '\n' ∉ l) :
    ∀ (cur rest : List Char),
      getlineAll (l ++ '\n' :: rest) cur = (cur.reverse ++ l ++ ['\n']) :: getlineAll rest [] := by
  induction l with
  | nil => intro cur rest; simp [getlineAll]
  | cons c l ih =>
    intro cur rest
    have hc : c ≠ '\n' := fun h => hl (by simp [h])
    have hl2 : '\n' ∉ l := fun h => hl (List.mem_cons_of_mem _ h)
    simp [getlineAll, hc, ih hl2]

/-- The reads of `getline` on lines that each end with `'\n'`. -/
theorem getlineAll_stdinOf (lines : List String) (h : ∀ l ∈ lines, '\n' ∉ l.toList) :
    getlineAll (stdinOf lines) [] = lines.map (fun l => l.toList ++ ['\n']) := by
  induction lines with
  | nil => rfl
  | cons l ls ih =>
    have h1 := h l (List.mem_cons_self _ _)
    have h2 : ∀ x ∈ ls, '\n' ∉ x.toList := fun x hx => h x (List.mem_cons_of_mem _ hx)
    show getlineAll (l.toList ++ '\n' :: stdinOf ls) [] = _
    rw [getlineAll_line l.toList h1, ih h2]
    rfl

/-- The buffer after `(*line)[n - 1] = '\0'`. -/
theorem set_last_nul (l : List Char) (c : Char) :
    (l ++ [c] ++ ['\x00']).set ((l ++ [c]).length - 1) '\x00' = l ++ ['\x00', '\x00'] := by
  induction l with
  | nil => rfl
  | cons x l ih =>
    have e : (x :: l ++ [c]).length - 1 = (l ++ [c]).length - 1 + 1 := by simp
    rw [e]
    show x :: ((l ++ [c] ++ ['\x00']).set ((l ++ [c]).length - 1) '\x00') = _
    rw [ih]
    rfl

/-- The C string of a buffer whose first NUL comes after the bytes `l`. -/
theorem takeWhile_not_nul (l : List Char) (h : '\x00' ∉ l) (rest : List Char) :
    (l ++ '\x00' :: rest).takeWhile (fun c => decide (c ≠ '\x00')) = l := by
  induction l with
  | nil => rfl
  | cons x l ih =>
    have hx : x ≠ '\x00' := fun e => h (by simp [e])
    have hl : '\x00' ∉ l := fun e => h (List.mem_cons_of_mem _ e)
    show (x :: (l ++ '\x00' :: rest)).takeWhile _ = _
    rw [List.takeWhile_cons_of_pos (by simpa using hx), ih hl]

/-- On a read that ends with `'\n'`, `fetchline` yields the line without it. -/
theorem fetchline_terminated (l : String) (line : String) (h : '\x00' ∉ l.toList) :
    fetchline (some (l.toList ++ ['\n'])) line = ((l.length : Int) + 1, l) := by
  have hpos : (0 : Int) < ((l.toList ++ ['\n']).length : Int) := by
    rw [List.length_append]; simp
  have hlen : ((l.toList ++ ['\n']).length : Int) = (l.length : Int) + 1 := by
    rw [List.length_append]; rfl
  unfold fetchline
  simp only [hpos, if_true]
  rw [set_last_nul, cString, takeWhile_not_nul l.toList h, hlen]
  rfl

/-- The texts dispatched by two parts of a session in sequence. -/
theorem processedLines_append (a b : List ShellEvent) :
    processedLines (a ++ b) = processedLines a ++ processedLines b := by
  induction a with
  | nil => rfl
  | cons e a ih => cases e <;> simp [processedLines, ih]

/-- In the shell process `processLine` returns on a line whose segments are
stored. -/
theorem processLine_returns (sys : Sys) (hshell : ∀ k, sys.fork k ≠ 0) (line : String)
    (n : Nat) (h : ∃ segs, segmentLine line = .ok segs) :
    (processLine sys line n).outcome = .returned := by
  obtain ⟨segs, hsegs⟩ := h
  exact (processLine_dispatches_in_order sys hshell line segs n hsegs).1

/-- The round on the line `exit`. -/
theorem shellRound_exit (sys : Sys) (n : Int) (held : Option String) (calls : Nat) :
    shellRound sys n "exit" held calls =
      { events := [.prompt], last_command := held, calls := calls, should_run := false,
        outcome := .returned } := by
  simp [shellRound, equal]

/-- The round on an empty line. -/
theorem shellRound_empty (sys : Sys) (n : Int) (held : Option String) (calls : Nat)
    (hn : n ≠ -1) :
    shellRound sys n "" held calls =
      { events := [.prompt], last_command := held, calls := calls, should_run := true,
        outcome := .returned } := by
  simp [shellRound, equal, hn]

/-- The round on `!!` when nothing is held. -/
theorem shellRound_recall_none (sys : Sys) (n : Int) (calls : Nat) (hn : n ≠ -1) :
    shellRound sys n "!!" none calls =
      { events := [.prompt, .no_history], last_command := none, calls := calls,
        should_run := true, outcome := .returned } := by
  simp [shellRound, equal, hn]

/-- The round on `!!` when a line is held. -/
theorem shellRound_recall_some (sys : Sys) (n : Int) (held : String) (calls : Nat)
    (hn : n ≠ -1) :
    shellRound sys n "!!" (some held) calls =
      { events := [.prompt, .echo (recallCopy held),
                   .process_line (recallCopy held) (processLine sys (recallCopy held) calls)],
        last_command := some held,
        calls := (processLine sys (recallCopy held) calls).calls, should_run := true,
        outcome := (processLine sys (recallCopy held) calls).outcome } := by
  simp [shellRound, equal, hn]

/-- The round on any other line. -/
theorem shellRound_command (sys : Sys) (n : Int) (l : String) (held : Option String)
    (calls : Nat) (hn : n ≠ -1) (hexit : l ≠ "exit") (hempty : l ≠ "") (hrecall : l ≠ "!!") :
    shellRound sys n l held calls =
      { events := [.prompt, .process_line l (processLine sys l calls)],
        last_command := some l, calls := (processLine sys l calls).calls,
        should_run := true, outcome := (processLine sys l calls).outcome } := by
  simp [shellRound, equal, hn, hexit, hempty, hrecall]

/-- The loop after a round that lets it go on. -/
theorem shellLoop_continue (sys : Sys) (read : List Char) (reads : List (List Char))
    (line : String) (held : Option String) (calls : Nat) (n : Int) (l : String)
    (hf : fetchline (some read) line = (n, l))
    (h1 : (shellRound sys n l held calls).outcome = .returned)
    (h2 : (shellRound sys n l held calls).should_run = true) :
    shellLoop sys (read :: reads) line held calls =
      { shellLoop sys reads l (shellRound sys n l held calls).last_command
          (shellRound sys n l held calls).calls with
        events := (shellRound sys n l held calls).events ++
          (shellLoop sys reads l (shellRound sys n l held calls).last_command
            (shellRound sys n l held calls).calls).events } := by
  simp only [shellLoop, hf, h1, h2, and_self, if_true]

/-- The loop after a round that clears `should_run`. -/
theorem shellLoop_stop (sys : Sys) (read : List Char) (reads : List (List Char))
    (line : String) (held : Option String) (calls : Nat) (n : Int) (l : String)
    (hf : fetchline (some read) line = (n, l))
    (h2 : (shellRound sys n l held calls).should_run = false) :
    shellLoop sys (read :: reads) line held calls =
      { events := (shellRound sys n l held calls).events,
        last_command := (shellRound sys n l held calls).last_command,
        calls := (shellRound sys n l held calls).calls,
        outcome := (shellRound sys n l held calls).outcome,
        status := if (shellRound sys n l held calls).outcome = .returned then some 0
                  else none } := by
  simp only [shellLoop, hf, h2, Bool.false_eq_true, and_false, if_false]

/-- The interactive loop on lines that each end with `'\n'`, from any state of
the history slot. -/
theorem shellLoop_lines (sys : Sys) (hshell : ∀ k, sys.fork k ≠ 0) :
    ∀ (lines : List String) (line : String) (held : Option String) (calls : Nat),
      (∀ l ∈ lines, '\x00' ∉ l.toList) →
      (∀ t ∈ dispatchedTexts held lines, ∃ segs, segmentLine t = .ok segs) →
      (shellLoop sys (lines.map (fun l => l.toList ++ ['\n'])) line held calls).outcome =
          .returned ∧
      (shellLoop sys (lines.map (fun l => l.toList ++ ['\n'])) line held calls).status =
          some 0 ∧
      processedLines
          (shellLoop sys (lines.map (fun l => l.toList ++ ['\n'])) line held calls).events =
        dispatchedTexts held lines ∧
      (shellLoop sys (lines.map (fun l => l.toList ++ ['\n'])) line held calls).last_command =
        heldAfter held lines := by
  intro lines
  induction lines with
  | nil =>
    intro line held calls _ _
    simp [shellLoop, fetchline, shellRound, processedLines, dispatchedTexts, heldAfter]
  | cons l ls ih =>
    intro line held calls hnul hfit
    have hl := hnul l (List.mem_cons_self _ _)
    have hnul2 : ∀ x ∈ ls, '\x00' ∉ x.toList := fun x hx => hnul x (List.mem_cons_of_mem _ hx)
    have hn : ((l.length : Int) + 1) ≠ -1 := by omega
    have hf := fetchline_terminated l line hl
    rw [List.map_cons]
    by_cases hexit : l = "exit"
    · subst hexit
      have hr := shellRound_exit sys (("exit".length : Int) + 1) held calls
      rw [shellLoop_stop sys _ _ line held calls _ _ hf (by rw [hr]), hr]
      refine ⟨rfl, rfl, ?_, ?_⟩
      · simp [processedLines, dispatchedTexts]
      · simp [heldAfter]
    · by_cases hempty : l = ""
      · subst hempty
        have hr := shellRound_empty sys (("".length : Int) + 1) held calls hn
        have hfit2 : ∀ t ∈ dispatchedTexts held ls, ∃ segs, segmentLine t = .ok segs := by
          intro t ht; apply hfit; simpa [dispatchedTexts] using ht
        rw [shellLoop_continue sys _ _ line held calls _ _ hf (by rw [hr]) (by rw [hr]), hr]
        obtain ⟨i1, i2, i3, i4⟩ := ih "" held calls hnul2 hfit2
        refine ⟨i1, i2, ?_, ?_⟩
        · show processedLines (_ ++ _) = _
          rw [processedLines_append, i3]
          simp [processedLines, dispatchedTexts]
        · rw [show heldAfter held ("" :: ls) = heldAfter held ls by simp [heldAfter]]
          exact i4
      · by_cases hrecall : l = "!!"
        · subst hrecall
          cases held with
          | none =>
            have hr := shellRound_recall_none sys (("!!".length : Int) + 1) calls hn
            have hfit2 : ∀ t ∈ dispatchedTexts none ls, ∃ segs, segmentLine t = .ok segs := by
              intro t ht; apply hfit; simpa [dispatchedTexts] using ht
            rw [shellLoop_continue sys _ _ line none calls _ _ hf (by rw [hr]) (by rw [hr]), hr]
            obtain ⟨i1, i2, i3, i4⟩ := ih "!!" none calls hnul2 hfit2
            refine ⟨i1, i2, ?_, ?_⟩
            · show processedLines (_ ++ _) = _
              rw [processedLines_append, i3]
              simp [processedLines, dispatchedTexts]
            · rw [show heldAfter none ("!!" :: ls) = heldAfter none ls by simp [heldAfter]]
              exact i4
          | some h =>
            have hr := shellRound_recall_some sys (("!!".length : Int) + 1) h calls hn
            have hret := processLine_returns sys hshell (recallCopy h) calls
              (hfit _ (by simp [dispatchedTexts, recallCopy]))
            have hfit2 : ∀ t ∈ dispatchedTexts (some h) ls,
                ∃ segs, segmentLine t = .ok segs := by
              intro t ht; apply hfit; simp [dispatchedTexts, ht]
            rw [shellLoop_continue sys _ _ line (some h) calls _ _ hf
              (by rw [hr]; exact hret) (by rw [hr]), hr]
            obtain ⟨i1, i2, i3, i4⟩ :=
              ih "!!" (some h) (processLine sys (recallCopy h) calls).calls hnul2 hfit2
            refine ⟨i1, i2, ?_, ?_⟩
            · show processedLines (_ ++ _) = _
              rw [processedLines_append, i3]
              simp [processedLines, dispatchedTexts, recallCopy]
            · rw [show heldAfter (some h) ("!!" :: ls) = heldAfter (some h) ls by
                simp [heldAfter]]
              exact i4
        · have hr := shellRound_command sys ((l.length : Int) + 1) l held calls hn hexit
            hempty hrecall
          have hret := processLine_returns sys hshell l calls
            (hfit _ (by simp [dispatchedTexts, hexit, hempty, hrecall]))
          have hfit2 : ∀ t ∈ dispatchedTexts (some l) ls,
              ∃ segs, segmentLine t = .ok segs := by
            intro t ht; apply hfit; simp [dispatchedTexts, hexit, hempty, hrecall, ht]
          rw [shellLoop_continue sys _ _ line held calls _ _ hf
            (by rw [hr]; exact hret) (by rw [hr]), hr]
          obtain ⟨i1, i2, i3, i4⟩ :=
            ih l (some l) (processLine sys l calls).calls hnul2 hfit2
          refine ⟨i1, i2, ?_, ?_⟩
          · show processedLines (_ ++ _) = _
            rw [processedLines_append, i3]
            simp [processedLines, dispatchedTexts, hexit, hempty, hrecall]
          · rw [show heldAfter held (l :: ls) = heldAfter (some l) ls by
              simp [heldAfter, hexit, hempty, hrecall]]
            exact i4

/-- A recalled text is `exit` only if the held line is. -/
theorem recallCopy_ne_exit (h : String) (hne : h ≠ "exit") :
    String.mk (h.toList.take (MAXLINE - 1)) ≠ "exit" := by
  intro e
  have e2 : h.toList.take (MAXLINE - 1) = ['e', 'x', 'i', 't'] := congrArg String.data e
  have hlen : (h.toList.take (MAXLINE - 1)).length = 4 := by rw [e2]; rfl
  rw [List.length_take] at hlen
  have hle : h.toList.length ≤ MAXLINE - 1 := by
    simp only [MAXLINE] at hlen ⊢
    omega
  rw [List.take_of_length_le hle] at e2
  apply hne
  show h = String.mk ['e', 'x', 'i', 't']
  rw [← e2]
  rfl

/-- The line `exit` is neither among the texts to dispatch nor the line to hold. -/
theorem exit_not_dispatched (lines : List String) :
    ∀ (held : Option String), held ≠ some "exit" →
      "exit" ∉ dispatchedTexts held lines ∧ heldAfter held lines ≠ some "exit" := by
  induction lines with
  | nil => intro held h; simp [dispatchedTexts, heldAfter, h]
  | cons l ls ih =>
    intro held h
    by_cases hexit : l = "exit"
    · simp [dispatchedTexts, heldAfter, hexit, h]
    · by_cases hempty : l = ""
      · subst hempty
        simpa [dispatchedTexts, heldAfter] using ih held h
      · by_cases hrecall : l = "!!"
        · subst hrecall
          cases held with
          | none => simpa [dispatchedTexts, heldAfter] using ih none h
          | some x =>
            have hx : x ≠ "exit" := fun e => h (by rw [e])
            have := ih (some x) h
            have hc := recallCopy_ne_exit x hx
            have hmem : "exit" ∉ dispatchedTexts (some x) ("!!" :: ls) := by
              intro hm
              have e : dispatchedTexts (some x) ("!!" :: ls) =
                  String.mk (x.toList.take (MAXLINE - 1)) :: dispatchedTexts (some x) ls := by
                simp [dispatchedTexts]
              rw [e] at hm
              rcases List.mem_cons.1 hm with hm | hm
              · exact hc hm.symm
              · exact this.1 hm
            refine ⟨hmem, ?_⟩
            simpa [heldAfter] using this.2
        · have := ih (some l) (by simpa using hexit)
          simp [dispatchedTexts, heldAfter, hexit, hempty, hrecall, this, Ne.symm hexit]

/-- C17 (counterexample): on the input lines `!!` and `exit` the loop returns 0
without a single call of `processLine`, although the non-empty line `!!` comes
before `exit`: nothing is held yet. -/
theorem interactive_session_counterexample :
    (interactiveShell shellSys (stdinOf ["!!", "exit"])).status = some 0 ∧
    processedLines (interactiveShell shellSys (stdinOf ["!!", "exit"])).events = [] := by
  refine ⟨by decide, by decide⟩

/-- C17 (amended): for every sequence of input lines, each ended by a line
terminator, on whose dispatched texts `processLine` stores its segments, the loop
in the shell process stops at the first line `exit` or at end-of-input and returns
0; before that it calls `processLine` once, in input order, for every line
that is neither empty nor a `!!` entered when nothing is held, with the line itself
or, for `!!`, with the first 79 characters of the held line, and it calls it for no
line at or after the stopping one; `exit` is neither dispatched nor held. -/
theorem interactive_session (sys : Sys) (lines : List String)
    (hshell : ∀ k, sys.fork k ≠ 0)
    (htext : ∀ l ∈ lines, '\n' ∉ l.toList ∧ '\x00' ∉ l.toList)
    (hfit : ∀ t ∈ dispatchedTexts none lines, ∃ segs, segmentLine t = .ok segs) :
    (interactiveShell sys (stdinOf lines)).outcome = .returned ∧
    (interactiveShell sys (stdinOf lines)).status = some 0 ∧
    processedLines (interactiveShell sys (stdinOf lines)).events = dispatchedTexts none lines ∧
    (interactiveShell sys (stdinOf lines)).last_command = heldAfter none lines ∧
    "exit" ∉ processedLines (interactiveShell sys (stdinOf lines)).events ∧
    (interactiveShell sys (stdinOf lines)).last_command ≠ some "exit" := by
  have hreads := getlineAll_stdinOf lines (fun l hl => (htext l hl).1)
  obtain ⟨h1, h2, h3, h4⟩ := shellLoop_lines sys hshell lines "" none 0
    (fun l hl => (htext l hl).2) hfit
  obtain ⟨h5, h6⟩ := exit_not_dispatched lines none (by simp)
  unfold interactiveShell
  rw [hreads]
  refine ⟨h1, h2, h3, h4, ?_, ?_⟩
  · rw [h3]; exact h5
  · rw [h4]; exact h6

/-- The amended C17 at the input lines `ls`, `!!`, an empty line, `exit`, `pwd`. -/
theorem interactive_session_witness :
    (interactiveShell shellSys (stdinOf ["ls", "!!", "", "exit", "pwd"])).outcome = .returned ∧
    (interactiveShell shellSys (stdinOf ["ls", "!!", "", "exit", "pwd"])).status = some 0 ∧
    processedLines (interactiveShell shellSys (stdinOf ["ls", "!!", "", "exit", "pwd"])).events =
      dispatchedTexts none ["ls", "!!", "", "exit", "pwd"] ∧
    (interactiveShell shellSys (stdinOf ["ls", "!!", "", "exit", "pwd"])).last_command =
      heldAfter none ["ls", "!!", "", "exit", "pwd"] ∧
    "exit" ∉ processedLines
      (interactiveShell shellSys (stdinOf ["ls", "!!", "", "exit", "pwd"])).events ∧
    (interactiveShell shellSys (stdinOf ["ls", "!!", "", "exit", "pwd"])).last_command ≠
      some "exit" :=
  interactive_session shellSys ["ls", "!!", "", "exit", "pwd"]
    (fun k => by show (100 : Int) + k ≠ 0; omega) (by decide)
    (fun t ht => by
      have e : dispatchedTexts none ["ls", "!!", "", "exit", "pwd"] = ["ls", "ls"] := by decide
      rw [e] at ht
      have ht2 : t = "ls" := by simpa using ht
      rw [ht2]
      exact ⟨_, by rfl⟩)

/-! ## The line reader, failed forks and the reads of the redirection scan -/

/-- C18 (failing input): when the input ends with the line `ls` and no line
terminator, `getline` reads the two bytes and `fetchline` overwrites the last one:
it yields `l`; in the same way a final `exit` reaches the loop as `exi` and is
dispatched as a command. -/
theorem fetchline_failing_input :
    getlineAll "ls".toList [] = ["ls".toList] ∧
    fetchline (some "ls".toList) "" = (2, "l") ∧
    processedLines (interactiveShell shellSys "exit".toList).events = ["exi"] := by
  refine ⟨by decide, by decide, by decide⟩

/-- C19 (failing input): when the first `fork` of the pipeline `ls | wc` fails,
`execute_pipeline` prints no diagnostic, goes on to the second `fork` and, the
segment being foreground, calls `waitpid` on the failed identity `-1`; a single
command under the same failure does print `perror("fork")` and waits on nothing. -/
theorem fork_failure_failing_input :
    dispatchSegment forkFailSys (cArray ["ls", "|", "wc"]) false 0 =
      { events := [.enter_pipeline ["ls"] ["wc"] false, .pipe 0, .fork (-1), .fork 8,
                   .close .pipe_rd, .close .pipe_wr, .waitpid (-1), .waitpid 8, .free],
        calls := 3, outcome := .returned } ∧
    dispatchSegment forkFailSys (cArray ["ls"]) false 1 =
      { events := [.enter_single ["ls"] false, .fork (-1), .perror "fork", .free],
        calls := 2, outcome := .returned } := by
  refine ⟨by decide, by decide⟩

/-- The indices read by the redirection scan of a NULL-terminated array do not
pass its terminator. -/
theorem redirectionReads_le (ts : List String) (tail : TokenArray) :
    ∀ (i j : Nat), j ∈ redirectionReads (ts.map some ++ none :: tail) i → j ≤ i + ts.length := by
  induction ts with
  | nil =>
    intro i j hj
    simp [redirectionReads] at hj
    omega
  | cons t ts ih =>
    intro i j hj
    simp only [List.map_cons, List.cons_append, redirectionReads] at hj
    split at hj
    · simp at hj; simp; omega
    · split at hj
      · simp at hj; simp; omega
      · rcases List.mem_cons.1 hj with rfl | hj
        · omega
        · have := ih (i + 1) j hj
          simp; omega

/-- The redirection scan faults exactly when one of its reads is outside the
block. -/
theorem redirectionScan_ok_iff (block : TokenArray) :
    ∀ (before : TokenArray) (i : Nat),
      (∃ r, redirectionScan before block i = .ok r) ↔
        ∀ j ∈ redirectionReads block i, j < i + block.length := by
  induction block with
  | nil => intro before i; simp [redirectionScan, redirectionReads]
  | cons x rest ih =>
    intro before i
    cases x with
    | none => simp [redirectionScan, redirectionReads]
    | some t =>
      simp only [redirectionScan, redirectionReads]
      split
      · cases rest <;> simp
      · split
        · cases rest <;> simp
        · rw [ih]
          constructor
          · intro h j hj
            rcases List.mem_cons.1 hj with rfl | hj
            · simp
            · have := h j hj
              simp; omega
          · intro h j hj
            have := h j (List.mem_cons_of_mem _ hj)
            simp at this; omega

/-- The reads of the scan over tokens that are not operators. -/
theorem redirectionReads_skip (pre : List String) (hpre : ∀ t ∈ pre, t ≠ "<" ∧ t ≠ ">") :
    ∀ (rest : TokenArray) (i : Nat),
      redirectionReads (pre.map some ++ rest) i =
        List.range' i pre.length ++ redirectionReads rest (i + pre.length) := by
  induction pre with
  | nil => intro rest i; simp
  | cons t pre ih =>
    intro rest i
    have ht := hpre t (List.mem_cons_self _ _)
    have hrest : ∀ u ∈ pre, u ≠ "<" ∧ u ≠ ">" := fun u hu => hpre u (List.mem_cons_of_mem _ hu)
    have step : redirectionReads (some t :: (pre.map some ++ rest)) i =
        i :: redirectionReads (pre.map some ++ rest) (i + 1) := by
      simp [redirectionReads, equal, ht.1, ht.2]
    rw [List.map_cons, List.cons_append, step, ih hrest]
    simp [List.range'_succ, Nat.add_comm, Nat.add_left_comm]

/-- The reads of the scan of a NULL-terminated array, tied to the scan itself, with
the case of an operator in last place. -/
theorem redirectionReads_within (ts : List String) (tail : TokenArray) :
    (∀ (block before : TokenArray) (i : Nat),
      (∃ r, redirectionScan before block i = .ok r) ↔
        ∀ j ∈ redirectionReads block i, j < i + block.length) ∧
    (ts.map some ++ none :: tail)[ts.length]? = some none ∧
    (∀ j ∈ redirectionReads (ts.map some ++ none :: tail) 0, j ≤ ts.length) ∧
    (∃ r, redirectionScan [] (cArray ts) 0 = .ok r) ∧
    (∀ (pre : List String) (op : String), ts = pre ++ [op] →
      (∀ t ∈ pre, t ≠ "<" ∧ t ≠ ">") → op = "<" ∨ op = ">" →
      redirectionReads (ts.map some ++ none :: tail) 0 = List.range (ts.length + 1) ∧
      ∃ tokens, redirectionScan [] (ts.map some ++ none :: tail) 0 =
        .ok { input_file := none, output_file := none, tokens := tokens }) := by
  refine ⟨fun block => redirectionScan_ok_iff block, ?_, ?_, ?_, ?_⟩
  · rw [List.getElem?_append_right (by simp)]
    simp
  · intro j hj
    have := redirectionReads_le ts tail 0 j hj
    omega
  · exact redirectionScan_ok ts [] [] 0
  · intro pre op hts hpre hop
    subst hts
    have e : (pre ++ [op]).map some ++ none :: tail =
        pre.map some ++ (some op :: none :: tail) := by simp
    rw [e]
    refine ⟨?_, ?_⟩
    · rw [redirectionReads_skip pre hpre]
      have hr : redirectionReads (some op :: none :: tail) (0 + pre.length) =
          [pre.length, pre.length + 1] := by
        rcases hop with rfl | rfl <;> simp [redirectionReads, equal]
      have h2 : [pre.length, pre.length + 1] = List.range' (0 + pre.length) 2 := by
        simp [List.range']
      rw [hr, h2, List.range'_append_1, List.range_eq_range', List.length_append]
      have e3 : 2 + pre.length = pre.length + [op].length + 1 := by
        simp only [List.length_cons, List.length_nil]; omega
      rw [e3]
    · rw [redirectionScan_skip pre hpre]
      rcases hop with rfl | rfl
      · exact ⟨_, rfl⟩
      · exact ⟨_, rfl⟩

/-- C20: for every NULL-terminated token array, whole segment or side of a
pipeline with more slots behind its terminator, every index the redirection scan
reads is at most the index of the terminator, so that the scan of an array that ends
at its terminator never faults; when the first operator is the last token, the
reads are the indices up to the terminator, and the path read is the terminator
itself, `NULL`. The reads are those of the scan: it faults exactly when one of them
is outside the block. -/
theorem redirection_reads_within_array (ts : List String) (tail : TokenArray) :
    (∀ (block before : TokenArray) (i : Nat),
      (∃ r, redirectionScan before block i = .ok r) ↔
        ∀ j ∈ redirectionReads block i, j < i + block.length) ∧
    (ts.map some ++ none :: tail)[ts.length]? = some none ∧
    (∀ j ∈ redirectionReads (ts.map some ++ none :: tail) 0, j ≤ ts.length) ∧
    (∃ r, redirectionScan [] (cArray ts) 0 = .ok r) ∧
    (∀ (pre : List String) (op : String), ts = pre ++ [op] →
      (∀ t ∈ pre, t ≠ "<" ∧ t ≠ ">") → op = "<" ∨ op = ">" →
      redirectionReads (ts.map some ++ none :: tail) 0 = List.range (ts.length + 1) ∧
      ∃ tokens, redirectionScan [] (ts.map some ++ none :: tail) 0 =
        .ok { input_file := none, output_file := none, tokens := tokens }) :=
  redirectionReads_within ts tail

/-- C20 at the left side `cat <` of the pipeline `cat < | wc`. -/
theorem redirection_reads_within_array_witness :
    redirectionReads (["cat", "<"].map some ++ none :: cArray ["wc"]) 0 =
      List.range (["cat", "<"].length + 1) ∧
    ∃ tokens, redirectionScan [] (["cat", "<"].map some ++ none :: cArray ["wc"]) 0 =
      .ok { input_file := none, output_file := none, tokens := tokens } :=
  (redirection_reads_within_array ["cat", "<"] (cArray ["wc"])).2.2.2.2 ["cat"] "<" rfl
    (by decide) (Or.inl rfl)

end Shell

/-! # The memory allocator: free runs and the three strategies -/

namespace Memo

/-- The inner loop stops at the end of the free bytes that start at `j`. -/
theorem runEnd_spec (mem : Pool) : ∀ (fuel j : Nat), j ≤ MEMSIZE → MEMSIZE - j ≤ fuel →
    j ≤ runEnd mem fuel j ∧ runEnd mem fuel j ≤ MEMSIZE ∧
    (∀ k, j ≤ k → k < runEnd mem fuel j → mem k = FREE) ∧
    (runEnd mem fuel j = MEMSIZE ∨ mem (runEnd mem fuel j) ≠ FREE) := by
  intro fuel
  induction fuel with
  | zero =>
    intro j hj hfuel
    have e : j = MEMSIZE := by omega
    simp only [runEnd]
    exact ⟨Nat.le_refl _, hj, fun k h1 h2 => absurd h2 (by omega), Or.inl e⟩
  | succ fuel ih =>
    intro j hj hfuel
    simp only [runEnd]
    by_cases hc : j < MEMSIZE ∧ mem j = FREE
    · rw [if_pos hc]
      obtain ⟨h1, h2, h3, h4⟩ := ih (j + 1) (by omega) (by omega)
      refine ⟨by omega, h2, ?_, h4⟩
      intro k hk1 hk2
      by_cases hk : k = j
      · rw [hk]; exact hc.2
      · exact h3 k (by omega) hk2
    · rw [if_neg hc]
      refine ⟨Nat.le_refl _, hj, fun k h1 h2 => absurd h2 (by omega), ?_⟩
      by_cases hlt : j < MEMSIZE
      · right; exact fun h => hc ⟨hlt, h⟩
      · left; omega

/-- A free byte that follows a byte in use, or is the first of the pool, starts the
maximal free run that the inner loop measures, and no other maximal free run starts
between its two ends. -/
theorem run_at (mem : Pool) (i : Nat) (hi : i < MEMSIZE) (hfree : mem i = FREE)
    (hstart : i = 0 ∨ mem (i - 1) ≠ FREE) :
    MaximalFreeRun mem i (runEnd mem MEMSIZE i) ∧
    ∀ s e, MaximalFreeRun mem s e → i ≤ s → s ≤ runEnd mem MEMSIZE i →
      s = i ∧ e = runEnd mem MEMSIZE i := by
  obtain ⟨h1, h2, h3, h4⟩ := runEnd_spec mem MEMSIZE i (Nat.le_of_lt hi) (Nat.sub_le _ _)
  have hlt : i < runEnd mem MEMSIZE i := by
    rcases Nat.lt_or_ge i (runEnd mem MEMSIZE i) with h | h
    · exact h
    · have e : runEnd mem MEMSIZE i = i := Nat.le_antisymm h h1
      rcases h4 with h4 | h4
      · omega
      · rw [e] at h4; exact absurd hfree h4
  refine ⟨⟨hlt, h2, h3, hstart, h4⟩, ?_⟩
  intro s e ⟨r1, r2, r3, r4, r5⟩ hs1 hs2
  have hs : s = i := by
    rcases Nat.lt_or_ge i s with h | h
    · rcases r4 with r4 | r4
      · omega
      · exact absurd (h3 (s - 1) (by omega) (by omega)) r4
    · omega
  refine ⟨hs, ?_⟩
  subst hs
  rcases Nat.lt_trichotomy e (runEnd mem MEMSIZE s) with h | h | h
  · rcases r5 with r5 | r5
    · omega
    · exact absurd (h3 e (by omega) h) r5
  · exact h
  · rcases h4 with h4 | h4
    · omega
    · exact absurd (r3 _ h1 h) h4

/-- No maximal free run starts at a byte in use. -/
theorem no_run_at (mem : Pool) (i : Nat) (hused : mem i ≠ FREE) (s e : Nat)
    (hrun : MaximalFreeRun mem s e) : s ≠ i := by
  intro h
  subst h
  exact hused (hrun.2.2.1 s (Nat.le_refl _) hrun.1)

/-- The loop of `doAllocFirst`, entered at a place where a run may start and
before which no maximal free run is large enough: it returns the first maximal free
run that is large enough, or `NULL` when there is none. -/
theorem firstLoop_spec (mem : Pool) (size : Nat) (hsize : 1 ≤ size) :
    ∀ (fuel i : Nat), MEMSIZE + 2 - i ≤ fuel → i ≤ MEMSIZE + 1 →
      (i = 0 ∨ MEMSIZE < i ∨ mem (i - 1) ≠ FREE) →
      (∀ s e, MaximalFreeRun mem s e → s < i → e - s < size) →
      (∃ p, firstLoop mem size fuel i = some (some p) ∧ MaximalFreeRun mem p.s p.e ∧
          size ≤ p.e - p.s ∧ ∀ s e, MaximalFreeRun mem s e → size ≤ e - s → p.s ≤ s) ∨
      (firstLoop mem size fuel i = some none ∧
          ∀ s e, MaximalFreeRun mem s e → e - s < size) := by
  intro fuel
  induction fuel with
  | zero => intro i hfuel hi; omega
  | succ fuel ih =>
    intro i hfuel hi hstart hearlier
    simp only [firstLoop]
    by_cases hc : i + size ≤ MEMSIZE
    · rw [if_pos hc]
      have hstart2 : i = 0 ∨ mem (i - 1) ≠ FREE := by
        rcases hstart with h | h | h
        · exact Or.inl h
        · omega
        · exact Or.inr h
      by_cases hused : mem i ≠ FREE
      · rw [if_pos hused]
        apply ih (i + 1) (by omega) (by omega)
        · right; right; simpa using hused
        · intro s e hrun hs
          rcases Nat.lt_or_ge s i with h | h
          · exact hearlier s e hrun h
          · exact absurd (by omega) (no_run_at mem i hused s e hrun)
      · rw [if_neg hused]
        have hfree : mem i = FREE := by simpa using hused
        obtain ⟨hrun, huniq⟩ := run_at mem i (by omega) hfree hstart2
        by_cases hfit : size ≤ runEnd mem MEMSIZE i - i
        · simp only [hfit, if_true]
          left
          refine ⟨_, rfl, hrun, hfit, ?_⟩
          intro s e hr hlen
          rcases Nat.lt_or_ge s i with h | h
          · have := hearlier s e hr h; omega
          · exact h
        · simp only [hfit, if_false]
          have hj := hrun.2.1
          have hlt := hrun.1
          apply ih (runEnd mem MEMSIZE i + 1) (by omega) (by omega)
          · rcases hrun.2.2.2.2 with h | h
            · right; left; omega
            · right; right; simpa using h
          · intro s e hr hs
            rcases Nat.lt_or_ge s i with h | h
            · exact hearlier s e hr h
            · obtain ⟨e1, e2⟩ := huniq s e hr h (by omega)
              subst e1 e2
              omega
    · rw [if_neg hc]
      right
      refine ⟨rfl, ?_⟩
      intro s e hr
      rcases Nat.lt_or_ge s i with h | h
      · exact hearlier s e hr h
      · have := hr.2.1
        omega

/-- The result of `doAllocFirst`. -/
theorem doAllocFirst_spec (mem : Pool) (size : Nat) (hsize : 1 ≤ size) :
    (∃ p, doAllocFirst mem size = some (some p) ∧ MaximalFreeRun mem p.s p.e ∧
        size ≤ p.e - p.s ∧ ∀ s e, MaximalFreeRun mem s e → size ≤ e - s → p.s ≤ s) ∨
    (doAllocFirst mem size = some none ∧ ∀ s e, MaximalFreeRun mem s e → e - s < size) :=
  firstLoop_spec mem size hsize (MEMSIZE + 2) 0 (by omega) (by omega) (Or.inl rfl)
    (fun s e _ h => absurd h (by omega))

/-- C22: for every pool and every size of at least 1 (so for every size from 1 to
`MEMSIZE`), `doAllocFirst` returns a maximal run of free bytes `[s, e)` of length at
least `size` whose start is the lowest among all such runs, or `NULL`; and it
returns `NULL` exactly when no maximal free run has length at least `size`. -/
theorem first_fit (mem : Pool) (size : Nat) (hsize : 1 ≤ size) :
    ((∃ p, doAllocFirst mem size = some (some p) ∧ MaximalFreeRun mem p.s p.e ∧
        size ≤ p.e - p.s ∧ ∀ s e, MaximalFreeRun mem s e → size ≤ e - s → p.s ≤ s) ∨
      doAllocFirst mem size = some none) ∧
    (doAllocFirst mem size = some none ↔ ∀ s e, MaximalFreeRun mem s e → e - s < size) := by
  rcases doAllocFirst_spec mem size hsize with ⟨p, h1, h2, h3, h4⟩ | ⟨h1, h2⟩
  · refine ⟨Or.inl ⟨p, h1, h2, h3, h4⟩, ?_⟩
    rw [h1]
    constructor
    · intro h; simp at h
    · intro h
      have := h p.s p.e h2
      omega
  · exact ⟨Or.inr h1, fun _ => h2, fun _ => h1⟩

/-- C22 at the sample pool and size 4. -/
theorem first_fit_witness :
    1 ≤ 4 ∧
    ((∃ p, doAllocFirst samplePool 4 = some (some p) ∧ MaximalFreeRun samplePool p.s p.e ∧
        4 ≤ p.e - p.s ∧ ∀ s e, MaximalFreeRun samplePool s e → 4 ≤ e - s → p.s ≤ s) ∨
      doAllocFirst samplePool 4 = some none) ∧
    (doAllocFirst samplePool 4 = some none ↔
      ∀ s e, MaximalFreeRun samplePool s e → e - s < 4) :=
  ⟨by decide, first_fit samplePool 4 (by decide)⟩

/-- The loop of `doAllocBest` from a place where a run may start: it ends with the
smallest large-enough maximal free run of the pool, the first of that length, or
with `NULL` when there is none. -/
theorem bestLoop_spec (mem : Pool) (size : Nat) :
    ∀ (fuel i bestSize : Nat) (best : Option PAIR), MEMSIZE + 2 - i ≤ fuel → i ≤ MEMSIZE + 1 →
      (i = 0 ∨ MEMSIZE < i ∨ mem (i - 1) ≠ FREE) →
      BestSoFar mem size i bestSize best →
      ∃ r n, bestLoop mem size fuel i bestSize best = some r ∧
        BestSoFar mem size MEMSIZE n r := by
  intro fuel
  induction fuel with
  | zero => intro i bestSize best hfuel hi; omega
  | succ fuel ih =>
    intro i bestSize best hfuel hi hstart hinv
    simp only [bestLoop]
    by_cases hc : i < MEMSIZE
    · rw [if_pos hc]
      have hstart2 : i = 0 ∨ mem (i - 1) ≠ FREE := by
        rcases hstart with h | h | h
        · exact Or.inl h
        · omega
        · exact Or.inr h
      by_cases hused : mem i ≠ FREE
      · rw [if_pos hused]
        apply ih (i + 1) bestSize best (by omega) (by omega)
        · right; right; simpa using hused
        · cases best with
          | none =>
            refine ⟨hinv.1, ?_⟩
            intro s e hrun hs
            rcases Nat.lt_or_ge s i with h | h
            · exact hinv.2 s e hrun h
            · exact absurd (by omega) (no_run_at mem i hused s e hrun)
          | some p =>
            obtain ⟨b1, b2, b3, b4, b5⟩ := hinv
            refine ⟨b1, by omega, b3, b4, ?_⟩
            intro s e hrun hs hlen
            rcases Nat.lt_or_ge s i with h | h
            · exact b5 s e hrun h hlen
            · exact absurd (by omega) (no_run_at mem i hused s e hrun)
      · rw [if_neg hused]
        have hfree : mem i = FREE := by simpa using hused
        obtain ⟨hrun, huniq⟩ := run_at mem i hc hfree hstart2
        have hj := hrun.2.1
        have hlt := hrun.1
        have hnext : runEnd mem MEMSIZE i + 1 = 0 ∨ MEMSIZE < runEnd mem MEMSIZE i + 1 ∨
            mem (runEnd mem MEMSIZE i + 1 - 1) ≠ FREE := by
          rcases hrun.2.2.2.2 with h | h
          · right; left; omega
          · right; right; simpa using h
        by_cases hfit : size ≤ runEnd mem MEMSIZE i - i ∧ runEnd mem MEMSIZE i - i < bestSize
        · simp only [hfit, and_self, if_true]
          apply ih (runEnd mem MEMSIZE i + 1) _ _ (by omega) (by omega) hnext
          refine ⟨hrun, by show i < runEnd mem MEMSIZE i + 1; omega, rfl, hfit.1, ?_⟩
          intro s e hr hs hlen
          show runEnd mem MEMSIZE i - i < e - s ∨ (e - s = runEnd mem MEMSIZE i - i ∧ i ≤ s)
          rcases Nat.lt_or_ge s i with h | h
          · left
            cases best with
            | none => have := hinv.2 s e hr h; omega
            | some p =>
              obtain ⟨b1, b2, b3, b4, b5⟩ := hinv
              rcases b5 s e hr h hlen with h5 | h5
              · omega
              · omega
          · obtain ⟨e1, e2⟩ := huniq s e hr h (by omega)
            subst e1 e2
            right
            exact ⟨rfl, Nat.le_refl _⟩
        · rw [if_neg hfit]
          apply ih (runEnd mem MEMSIZE i + 1) bestSize best (by omega) (by omega) hnext
          cases best with
          | none =>
            refine ⟨hinv.1, ?_⟩
            intro s e hr hs
            rcases Nat.lt_or_ge s i with h | h
            · exact hinv.2 s e hr h
            · obtain ⟨e1, e2⟩ := huniq s e hr h (by omega)
              subst e1 e2
              have := hinv.1
              omega
          | some p =>
            obtain ⟨b1, b2, b3, b4, b5⟩ := hinv
            refine ⟨b1, by omega, b3, b4, ?_⟩
            intro s e hr hs hlen
            rcases Nat.lt_or_ge s i with h | h
            · exact b5 s e hr h hlen
            · obtain ⟨e1, e2⟩ := huniq s e hr h (by omega)
              subst e1 e2
              by_cases hlt2 : bestSize < runEnd mem MEMSIZE s - s
              · exact Or.inl hlt2
              · right
                exact ⟨by omega, by omega⟩
    · rw [if_neg hc]
      refine ⟨best, bestSize, rfl, ?_⟩
      cases best with
      | none =>
        refine ⟨hinv.1, ?_⟩
        intro s e hr hs
        rcases Nat.lt_or_ge s i with h | h
        · exact hinv.2 s e hr h
        · have := hr.1; have := hr.2.1; omega
      | some p =>
        obtain ⟨b1, b2, b3, b4, b5⟩ := hinv
        have := b1.1
        have := b1.2.1
        refine ⟨b1, by omega, b3, b4, ?_⟩
        intro s e hr hs hlen
        exact b5 s e hr (by omega) hlen

/-- The result of `doAllocBest`. -/
theorem doAllocBest_spec (mem : Pool) (size : Nat) :
    (∃ p, doAllocBest mem size = some (some p) ∧ MaximalFreeRun mem p.s p.e ∧
        size ≤ p.e - p.s ∧
        ∀ s e, MaximalFreeRun mem s e → size ≤ e - s →
          p.e - p.s ≤ e - s ∧ (e - s = p.e - p.s → p.s ≤ s)) ∨
    (doAllocBest mem size = some none ∧ ∀ s e, MaximalFreeRun mem s e → e - s < size) := by
  obtain ⟨r, n, hr, hinv⟩ := bestLoop_spec mem size (MEMSIZE + 2) 0 (MEMSIZE + 1) none
    (by omega) (by omega) (Or.inl rfl) ⟨rfl, fun s e _ h => absurd h (by omega)⟩
  cases r with
  | none =>
    right
    refine ⟨hr, ?_⟩
    intro s e hrun
    exact hinv.2 s e hrun (by have := hrun.1; have := hrun.2.1; omega)
  | some p =>
    left
    obtain ⟨b1, b2, b3, b4, b5⟩ := hinv
    refine ⟨p, hr, b1, by omega, ?_⟩
    intro s e hrun hlen
    have hs : s < MEMSIZE := by have := hrun.1; have := hrun.2.1; omega
    rcases b5 s e hrun hs hlen with h | h
    · exact ⟨by omega, fun h2 => by omega⟩
    · exact ⟨by omega, fun _ => h.2⟩

/-- C23: for every pool and every size, `doAllocBest` returns a maximal run of free
bytes `[s, e)` of length at least `size`, no longer than any other such run and with
the lowest start among those of its length, or `NULL`; and it returns `NULL` exactly
when no maximal free run has length at least `size`. -/
theorem best_fit (mem : Pool) (size : Nat) :
    ((∃ p, doAllocBest mem size = some (some p) ∧ MaximalFreeRun mem p.s p.e ∧
        size ≤ p.e - p.s ∧
        ∀ s e, MaximalFreeRun mem s e → size ≤ e - s →
          p.e - p.s ≤ e - s ∧ (e - s = p.e - p.s → p.s ≤ s)) ∨
      doAllocBest mem size = some none) ∧
    (doAllocBest mem size = some none ↔ ∀ s e, MaximalFreeRun mem s e → e - s < size) := by
  rcases doAllocBest_spec mem size with ⟨p, h1, h2, h3, h4⟩ | ⟨h1, h2⟩
  · refine ⟨Or.inl ⟨p, h1, h2, h3, h4⟩, ?_⟩
    rw [h1]
    constructor
    · intro h; simp at h
    · intro h
      have := h p.s p.e h2
      omega
  · exact ⟨Or.inr h1, fun _ => h2, fun _ => h1⟩

/-! # The memory allocator: `doAlloc` and `doCompact` -/

/-- The loop of `doAllocWorst` ends, and with a block made of free bytes of the
pool, large enough, if the block it starts with is one. -/
theorem worstLoop_spec (mem : Pool) (size : Nat) :
    ∀ (fuel i : Nat) (worstSize : Int) (worst : Option PAIR), MEMSIZE + 2 - i ≤ fuel →
      i ≤ MEMSIZE + 1 →
      (∀ p, worst = some p →
        p.e ≤ MEMSIZE ∧ size ≤ p.e - p.s ∧ ∀ k, p.s ≤ k → k < p.e → mem k = FREE) →
      ∃ r, worstLoop mem size fuel i worstSize worst = some r ∧
        ∀ p, r = some p →
          p.e ≤ MEMSIZE ∧ size ≤ p.e - p.s ∧ ∀ k, p.s ≤ k → k < p.e → mem k = FREE := by
  intro fuel
  induction fuel with
  | zero => intro i worstSize worst hfuel hi; omega
  | succ fuel ih =>
    intro i worstSize worst hfuel hi hinv
    simp only [worstLoop]
    by_cases hc : i < MEMSIZE
    · rw [if_pos hc]
      by_cases hused : mem i ≠ FREE
      · rw [if_pos hused]
        exact ih (i + 1) worstSize worst (by omega) (by omega) hinv
      · rw [if_neg hused]
        obtain ⟨h1, h2, h3, _⟩ := runEnd_spec mem MEMSIZE i (Nat.le_of_lt hc) (Nat.sub_le _ _)
        by_cases hfit : size ≤ runEnd mem MEMSIZE i - i ∧
            worstSize < ((runEnd mem MEMSIZE i - i : Nat) : Int)
        · rw [if_pos hfit]
          apply ih (runEnd mem MEMSIZE i + 1) _ _ (by omega) (by omega)
          intro p hp
          injection hp with hp
          subst hp
          exact ⟨h2, hfit.1, h3⟩
        · rw [if_neg hfit]
          exact ih (runEnd mem MEMSIZE i + 1) worstSize worst (by omega) (by omega) hinv
    · rw [if_neg hc]
      exact ⟨worst, rfl, hinv⟩

/-- Whatever the letter, `doAlloc` gets a block or `NULL` from its strategy, and a
block is made of free bytes of the pool and is large enough. -/
theorem chooseBlock_spec (mem : Pool) (size : Nat) (algo : Char) (hsize : 1 ≤ size) :
    ∃ r, chooseBlock mem size algo = some r ∧
      ∀ p, r = some p →
        p.e ≤ MEMSIZE ∧ size ≤ p.e - p.s ∧ ∀ k, p.s ≤ k → k < p.e → mem k = FREE := by
  unfold chooseBlock
  by_cases hF : algo = 'F'
  · rw [if_pos hF]
    rcases doAllocFirst_spec mem size hsize with ⟨p, h1, h2, h3, _⟩ | ⟨h1, _⟩
    · refine ⟨some p, h1, ?_⟩
      intro q hq
      injection hq with hq
      subst hq
      exact ⟨h2.2.1, h3, h2.2.2.1⟩
    · exact ⟨none, h1, fun p hp => by simp at hp⟩
  · rw [if_neg hF]
    by_cases hB : algo = 'B'
    · rw [if_pos hB]
      rcases doAllocBest_spec mem size with ⟨p, h1, h2, h3, _⟩ | ⟨h1, _⟩
      · refine ⟨some p, h1, ?_⟩
        intro q hq
        injection hq with hq
        subst hq
        exact ⟨h2.2.1, h3, h2.2.2.1⟩
      · exact ⟨none, h1, fun p hp => by simp at hp⟩
    · rw [if_neg hB]
      by_cases hW : algo = 'W'
      · rw [if_pos hW]
        exact worstLoop_spec mem size (MEMSIZE + 2) 0 (-1) none (by omega) (by omega)
          (fun p hp => by simp at hp)
      · rw [if_neg hW]
        exact ⟨none, rfl, fun p hp => by simp at hp⟩

/-- The loop of `stomp` from index `i` on writes `name` at the indices from `i` up
to `start + size` that are in the pool, and nowhere else. -/
theorem stompLoop_spec (name : Char) (start size : Nat) :
    ∀ (fuel i : Nat) (mem : Pool), start + size - i ≤ fuel →
      ∀ k, stompLoop name start size fuel i mem k =
        if i ≤ k ∧ k < start + size ∧ k < MEMSIZE then name else mem k := by
  intro fuel
  induction fuel with
  | zero =>
    intro i mem hfuel k
    simp only [stompLoop]
    rw [if_neg (by omega)]
  | succ fuel ih =>
    intro i mem hfuel k
    simp only [stompLoop]
    by_cases hc : i < start + size ∧ i < MEMSIZE
    · rw [if_pos hc, ih (i + 1) _ (by omega) k]
      by_cases hk : k = i
      · subst hk
        simp [hc.1, hc.2]
      · by_cases h1 : i + 1 ≤ k ∧ k < start + size ∧ k < MEMSIZE
        · rw [if_pos h1, if_pos ⟨by omega, h1.2.1, h1.2.2⟩]
        · rw [if_neg h1, if_neg hk, if_neg (by omega)]
    · rw [if_neg hc, if_neg (by omega)]

/-- The pool after `stomp`. -/
theorem stomp_spec (mem : Pool) (name : Char) (start size : Nat) (k : Nat) :
    stomp mem name start size k =
      if start ≤ k ∧ k < start + size ∧ k < MEMSIZE then name else mem k :=
  stompLoop_spec name start size size start mem (by omega) k

/-- C24: for every pool, name, size of at least 1 and letter, `doAlloc` ends. Let
`found` be what the strategy named by the letter returns (`doAllocFirst` for `F`,
`doAllocBest` for `B`, `doAllocWorst` for `W`), and `NULL` for any other letter.
When `found` is a block that starts at `s`, the bytes `[s, s + size)` are in the
pool, were free, and now hold the name, while every other byte is as before; when
`found` is `NULL`, the pool is as before. -/
theorem doAlloc_frame (mem : Pool) (name : Char) (size : Nat) (algo : Char)
    (hsize : 1 ≤ size) :
    ∃ result found, doAlloc mem name size algo = some result ∧
      (algo = 'F' → doAllocFirst mem size = some found) ∧
      (algo = 'B' → doAllocBest mem size = some found) ∧
      (algo = 'W' → doAllocWorst mem size = some found) ∧
      (¬ (algo = 'F' ∨ algo = 'B' ∨ algo = 'W') → found = none) ∧
      (∀ p, found = some p →
        (∀ k, p.s ≤ k → k < p.s + size →
          k < MEMSIZE ∧ mem k = FREE ∧ result.mem k = name) ∧
        (∀ k, ¬ (p.s ≤ k ∧ k < p.s + size) → result.mem k = mem k)) ∧
      (found = none → result.mem = mem) := by
  obtain ⟨r, hr, hspec⟩ := chooseBlock_spec mem size algo hsize
  have hF : algo = 'F' → doAllocFirst mem size = some r := by
    intro h
    rw [← hr, chooseBlock, if_pos h]
  have hB : algo = 'B' → doAllocBest mem size = some r := by
    intro h
    have hne : ¬ algo = 'F' := by
      rw [h]
      decide
    rw [← hr, chooseBlock, if_neg hne, if_pos h]
  have hW : algo = 'W' → doAllocWorst mem size = some r := by
    intro h
    have hne1 : ¬ algo = 'F' := by
      rw [h]
      decide
    have hne2 : ¬ algo = 'B' := by
      rw [h]
      decide
    rw [← hr, chooseBlock, if_neg hne1, if_neg hne2, if_pos h]
  have hother : ¬ (algo = 'F' ∨ algo = 'B' ∨ algo = 'W') → r = none := by
    intro h
    have e : chooseBlock mem size algo = some none := by
      unfold chooseBlock
      rw [if_neg (fun x => h (Or.inl x)), if_neg (fun x => h (Or.inr (Or.inl x))),
        if_neg (fun x => h (Or.inr (Or.inr x)))]
    rw [hr] at e
    injection e
  cases r with
  | none =>
    refine ⟨{ mem := mem, output := ["Cannot find " ++ toString size ++ " free bytes\n"] },
      none, by simp only [doAlloc, hr], hF, hB, hW, hother, ?_, fun _ => rfl⟩
    intro p hp
    simp at hp
  | some q =>
    obtain ⟨h1, h2, h3⟩ := hspec q rfl
    refine ⟨{ mem := stomp mem name q.s size, output := [] }, some q,
      by simp only [doAlloc, hr], hF, hB, hW, hother, ?_, ?_⟩
    · intro p hp
      injection hp with hp
      subst hp
      refine ⟨?_, ?_⟩
      · intro k hk1 hk2
        refine ⟨by omega, h3 k hk1 (by omega), ?_⟩
        show stomp mem name q.s size k = name
        rw [stomp_spec, if_pos ⟨hk1, hk2, by omega⟩]
      · intro k hk
        show stomp mem name q.s size k = mem k
        rw [stomp_spec, if_neg (fun h => hk ⟨h.1, h.2.1⟩)]
    · intro h
      simp at h

/-- C24 at the sample pool: `X` allocated with 4 bytes by best fit, which finds the
five free bytes `[7, 12)`; the bytes 7 to 10 get the name. -/
theorem doAlloc_frame_witness :
    1 ≤ 4 ∧
    doAllocBest samplePool 4 = some (some { s := 7, e := 12 }) ∧
    ∃ result, doAlloc samplePool 'X' 4 'B' = some result ∧
      (∀ k, 7 ≤ k → k < 7 + 4 →
        k < MEMSIZE ∧ samplePool k = FREE ∧ result.mem k = 'X') ∧
      (∀ k, ¬ (7 ≤ k ∧ k < 7 + 4) → result.mem k = samplePool k) := by
  obtain ⟨result, found, hres, _, hB, _, _, hfound, _⟩ :=
    doAlloc_frame samplePool 'X' 4 'B' (by decide)
  have hbest : doAllocBest samplePool 4 = some (some { s := 7, e := 12 }) := by decide
  have hblock : found = some { s := 7, e := 12 } := by
    have h := hB rfl
    rw [hbest] at h
    injection h with h
    exact h.symm
  exact ⟨by decide, hbest, result, hres, hfound { s := 7, e := 12 } hblock⟩

/-- The first loop of `doCompact` collects the bytes in use, in order. -/
theorem compactLoop_eq (mem : Pool) (n : Nat) :
    compactLoop mem n = ((List.range n).map mem).filter (fun c => decide (c ≠ FREE)) := by
  induction n with
  | zero => rfl
  | succ n ih =>
    rw [List.range_succ, List.map_append, List.filter_append, ← ih]
    by_cases h : mem n ≠ FREE
    · simp [compactLoop, h]
    · simp [compactLoop, h]

/-- The second loop of `doCompact` pads the buffer with `FREE` up to `MEMSIZE`. -/
theorem fillLoop_eq : ∀ (fuel : Nat) (buf : List Char), MEMSIZE - buf.length ≤ fuel →
    fillLoop fuel buf = buf ++ List.replicate (MEMSIZE - buf.length) FREE := by
  intro fuel
  induction fuel with
  | zero =>
    intro buf h
    have e : MEMSIZE - buf.length = 0 := by omega
    simp [fillLoop, e]
  | succ fuel ih =>
    intro buf h
    simp only [fillLoop]
    by_cases hc : buf.length < MEMSIZE
    · rw [if_pos hc, ih (buf ++ [FREE]) (by simp; omega)]
      have e : MEMSIZE - buf.length = (MEMSIZE - (buf ++ [FREE]).length) + 1 := by
        simp; omega
      rw [e, List.replicate_succ]
      simp
    · have e : MEMSIZE - buf.length = 0 := by omega
      rw [if_neg hc, e]
      simp

/-- The buffer that `doCompact` copies back: the bytes in use, then `FREE`. -/
theorem compact_buffer (mem : Pool) :
    fillLoop MEMSIZE (compactLoop mem MEMSIZE) =
      (bytes mem).filter (fun c => decide (c ≠ FREE)) ++
        List.replicate (MEMSIZE - ((bytes mem).filter (fun c => decide (c ≠ FREE))).length)
          FREE ∧
    (fillLoop MEMSIZE (compactLoop mem MEMSIZE)).length = MEMSIZE := by
  have h1 : fillLoop MEMSIZE (compactLoop mem MEMSIZE) =
      (bytes mem).filter (fun c => decide (c ≠ FREE)) ++
        List.replicate (MEMSIZE - ((bytes mem).filter (fun c => decide (c ≠ FREE))).length)
          FREE := by
    rw [fillLoop_eq _ _ (Nat.sub_le _ _), compactLoop_eq]
    rfl
  refine ⟨h1, ?_⟩
  rw [h1, List.length_append, List.length_replicate]
  have hle : ((bytes mem).filter (fun c => decide (c ≠ FREE))).length ≤ MEMSIZE := by
    have h := List.length_filter_le (fun c => decide (c ≠ FREE)) (bytes mem)
    have hb : (bytes mem).length = MEMSIZE := by simp [bytes]
    omega
  omega

/-- The copy of the first `n` bytes of a buffer that holds them ends: the pool
then has these bytes, and the others as before. -/
theorem memcpy_spec (buf : List Char) : ∀ (n : Nat) (mem : Pool), n ≤ buf.length →
    ∃ r, memcpy buf n mem = some r ∧
      (∀ k, k < n → buf[k]? = some (r k)) ∧ (∀ k, n ≤ k → r k = mem k) := by
  intro n
  induction n with
  | zero =>
    intro mem _
    exact ⟨mem, rfl, fun k hk => by omega, fun k _ => rfl⟩
  | succ n ih =>
    intro mem hn
    obtain ⟨r, hr, h1, h2⟩ := ih mem (by omega)
    have hget : buf[n]? = some (buf.get ⟨n, by omega⟩) := List.getElem?_eq_getElem (by omega)
    refine ⟨fun k => if k = n then buf.get ⟨n, by omega⟩ else r k, ?_, ?_, ?_⟩
    · simp only [memcpy, hr, hget]
    · intro k hk
      by_cases e : k = n
      · subst e
        simp [hget]
      · simp only [if_neg e]
        exact h1 k (by omega)
    · intro k hk
      have e : ¬ k = n := by omega
      simp only [if_neg e]
      exact h2 k (by omega)

/-- A pool whose first `MEMSIZE` bytes are those of a buffer of that length. -/
theorem bytes_of_buffer (buf : List Char) (r : Pool) (hlen : buf.length = MEMSIZE)
    (h : ∀ k, k < MEMSIZE → buf[k]? = some (r k)) : bytes r = buf := by
  apply List.ext_getElem
  · simp [bytes, hlen]
  · intro i h1 h2
    have hi : i < MEMSIZE := by simpa [bytes] using h1
    have hb := h i hi
    rw [List.getElem?_eq_getElem h2] at hb
    injection hb with hb
    simp only [bytes, List.getElem_map, List.getElem_range]
    exact hb.symm

/-- The buffer of `doCompact` is the same for two pools with the same bytes in
use, in the same order. -/
theorem compact_buffer_again (mem : Pool) (r : Pool)
    (h : bytes r = fillLoop MEMSIZE (compactLoop mem MEMSIZE)) :
    fillLoop MEMSIZE (compactLoop r MEMSIZE) =
      fillLoop MEMSIZE (compactLoop mem MEMSIZE) := by
  rw [(compact_buffer r).1, h, (compact_buffer mem).1]
  have hfilter : (((bytes mem).filter (fun c => decide (c ≠ FREE)) ++
      List.replicate (MEMSIZE - ((bytes mem).filter (fun c => decide (c ≠ FREE))).length)
        FREE).filter (fun c => decide (c ≠ FREE))) =
      (bytes mem).filter (fun c => decide (c ≠ FREE)) := by
    rw [List.filter_append, List.filter_filter]
    have hrep : (List.replicate
        (MEMSIZE - ((bytes mem).filter (fun c => decide (c ≠ FREE))).length) FREE).filter
          (fun c => decide (c ≠ FREE)) = [] := by
      rw [List.filter_eq_nil_iff]
      intro c hc
      have := List.eq_of_mem_replicate hc
      simp [this]
    rw [hrep, List.append_nil]
    congr 1
    funext c
    simp
  rw [hfilter]

/-- The number of times a byte value is in the buffer of `doCompact`. -/
theorem compact_buffer_count (mem : Pool) (name : Char) :
    ((bytes mem).filter (fun c => decide (c ≠ FREE)) ++
      List.replicate (MEMSIZE - ((bytes mem).filter (fun c => decide (c ≠ FREE))).length)
        FREE).count name = (bytes mem).count name := by
  rw [List.count_append, List.count_replicate]
  by_cases hname : name = FREE
  · subst hname
    have h0 : ((bytes mem).filter (fun c => decide (c ≠ FREE))).count FREE = 0 := by
      rw [List.count_eq_zero]
      intro h
      have := (List.mem_filter.1 h).2
      simp at this
    have hlen : (bytes mem).length = MEMSIZE := by simp [bytes]
    have hsplit := List.length_eq_countP_add_countP (fun c => decide (c ≠ FREE)) (bytes mem)
    have hcount : (bytes mem).count FREE =
        (bytes mem).countP (fun c => ¬ (decide (c ≠ FREE)) = true) := by
      rw [List.count]
      congr 1
      funext c
      by_cases hc : c = FREE <;> simp [hc]
    have hfl : (bytes mem).countP (fun c => decide (c ≠ FREE)) =
        ((bytes mem).filter (fun c => decide (c ≠ FREE))).length :=
      List.countP_eq_length_filter _ _
    rw [h0, hcount]
    simp only [beq_self_eq_true, if_true]
    omega
  · have h1 : ((bytes mem).filter (fun c => decide (c ≠ FREE))).count name =
        (bytes mem).count name := by
      rw [List.count_filter]
      simpa using hname
    rw [h1]
    have hne : (FREE == name) = false := by
      simp
      exact fun h => hname h.symm
    simp [hne]

/-- The pool after `doCompact`, with its consequences. -/
theorem doCompact_spec (mem : Pool) :
    ∃ result, doCompact mem = some result ∧
      bytes result =
        (bytes mem).filter (fun c => decide (c ≠ FREE)) ++
          List.replicate
            (MEMSIZE - ((bytes mem).filter (fun c => decide (c ≠ FREE))).length) FREE ∧
      (∀ name : Char, (bytes result).count name = (bytes mem).count name) ∧
      doCompact result = some result := by
  obtain ⟨hbuf, hlen⟩ := compact_buffer mem
  obtain ⟨r, hr, h1, h2⟩ := memcpy_spec (fillLoop MEMSIZE (compactLoop mem MEMSIZE))
    MEMSIZE mem (by omega)
  have hbytes : bytes r = fillLoop MEMSIZE (compactLoop mem MEMSIZE) :=
    bytes_of_buffer _ r hlen h1
  have hb : bytes r =
      (bytes mem).filter (fun c => decide (c ≠ FREE)) ++
        List.replicate (MEMSIZE - ((bytes mem).filter (fun c => decide (c ≠ FREE))).length)
          FREE := by
    rw [hbytes, hbuf]
  refine ⟨r, hr, hb, ?_, ?_⟩
  · intro name
    rw [hb]
    exact compact_buffer_count mem name
  · obtain ⟨r2, hr2, h3, h4⟩ := memcpy_spec (fillLoop MEMSIZE (compactLoop mem MEMSIZE))
      MEMSIZE r (by omega)
    have hsame : r2 = r := by
      funext k
      by_cases hk : k < MEMSIZE
      · have e1 := h1 k hk
        have e2 := h3 k hk
        rw [e1] at e2
        injection e2 with e2
        exact e2.symm
      · exact h4 k (by omega)
    show memcpy (fillLoop MEMSIZE (compactLoop r MEMSIZE)) MEMSIZE r = some r
    rw [compact_buffer_again mem r hbytes, hr2, hsame]

/-- At the sample pool `doCompact` leaves `AABBCD` and 74 free bytes; a copy of the
buffer as the first loop leaves it, without the fill loop, has no determined
result. -/
theorem doCompact_samplePool :
    (doCompact samplePool).map bytes = some ("AABBCD".toList ++ List.replicate 74 FREE) ∧
    memcpy (compactLoop samplePool MEMSIZE) MEMSIZE samplePool = none := by
  refine ⟨by decide, ?_⟩
  have h : (memcpy (compactLoop samplePool MEMSIZE) MEMSIZE samplePool).isNone = true := by
    decide
  exact Option.isNone_iff_eq_none.1 h

/-- C25: for every pool, `doCompact` ends with every byte of the pool determined;
the bytes it leaves are the bytes in use of the pool, in their order, followed by
`FREE` up to `MEMSIZE`; so every byte value occurs as often as before, and
`doCompact` on the pool it left leaves that same pool. -/
theorem compact_to_left (mem : Pool) :
    ∃ result, doCompact mem = some result ∧
      bytes result =
        (bytes mem).filter (fun c => decide (c ≠ FREE)) ++
          List.replicate
            (MEMSIZE - ((bytes mem).filter (fun c => decide (c ≠ FREE))).length) FREE ∧
      (∀ name : Char, (bytes result).count name = (bytes mem).count name) ∧
      doCompact result = some result :=
  doCompact_spec mem

end Memo

namespace Sudoku

/-! ## The sudoku checker -/

end Sudoku
